import Mathlib

/-!
# Credit-card validator: a shallow embedding of `main.go`

A Go `string` is an immutable sequence of bytes: `len(s)` is the number of
bytes and `s[i]` is the byte at index `i`.  The embedding represents a string
by the list of its bytes, each byte a natural number (a value below 256 for a
real string; every theorem below holds for all lists, so in particular for all
byte strings).  The "characters" the validators look at are these bytes, and a
decimal digit is a byte in the range `'0'`..`'9'`, that is 48..57.  Every byte
of a multi-byte UTF-8 character is at least 128, so a string has a non-digit
character exactly when it has a non-digit byte.

Go's `int` is 64 bits wide.  The sums computed by `validateLuhn` are bounded by
nine times the length of the string, so they are modelled by unbounded
naturals; the bounds of a `Bank` are modelled by integers and the 64-bit range
is enforced where the code enforces it, in `strconv.Atoi`.
-/

namespace CardValidator

/-- A Go string: the list of its bytes. -/
abbrev GoString := List Nat

/-- UTF-8 encoding of one code point, as Go source text encodes string literals. -/
def utf8Bytes (c : Nat) : List Nat :=
  if c < 128 then [c]
  else if c < 2048 then [192 + c / 64, 128 + c % 64]
  else if c < 65536 then [224 + c / 4096, 128 + c / 64 % 64, 128 + c % 64]
  else [240 + c / 262144, 128 + c / 4096 % 64, 128 + c / 64 % 64, 128 + c % 64]

/-- The bytes of a string literal. -/
def str (s : String) : GoString :=
  s.data.foldr (fun c acc => utf8Bytes c.toNat ++ acc) []

/-- The test `ch < '0' || ch > '9'` negated: the byte is a decimal digit. -/
def isDigitByte (ch : Nat) : Bool := !(ch < 48 || ch > 57)

/-! ## `validateInput` (main.go, lines 92-103) -/

/-- The loop `for i := 0; i < len(cardNumber); i++` of `validateInput`, run on
the bytes not yet visited: the first byte outside `'0'`..`'9'` returns false. -/
def validateInputLoop : GoString → Bool
  | [] => true
  | ch :: rest => if ch < 48 || ch > 57 then false else validateInputLoop rest

/-- Embedding of `validateInput`. -/
def validateInput (cardNumber : GoString) : Bool :=
  if cardNumber.length < 13 || cardNumber.length > 19 then false
  else validateInputLoop cardNumber

/-! ## `validateLuhn` (main.go, lines 106-134) -/

/-- The loop `for i := len(cardNumber) - 1; i >= 0; i--` of `validateLuhn`.
The first argument is `i + 1`, the number of bytes still to visit; `sum` and
`double` are the two local variables of the loop. -/
def luhnLoop (cardNumber : GoString) : Nat → Nat → Bool → Bool
  | 0, sum, _ => sum % 10 == 0
  | i + 1, sum, double =>
    let ch := cardNumber.getD i 0
    if ch < 48 || ch > 57 then false
    else
      let d := ch - 48
      let d := if double then (if d * 2 > 9 then d * 2 - 9 else d * 2) else d
      luhnLoop cardNumber i (sum + d) (!double)

/-- Embedding of `validateLuhn`. -/
def validateLuhn (cardNumber : GoString) : Bool :=
  if cardNumber.length < 2 then false
  else luhnLoop cardNumber cardNumber.length 0 false

/-! ### The Luhn total as the specification words it -/

/-- Contribution of the digit value `d` at position `pos` counted from the
right: `d` itself at an even position, and at an odd position `2d` when
`2d <= 9`, else `2d - 9`. -/
def specLuhnTerm (pos d : Nat) : Nat :=
  if pos % 2 = 0 then d else if 2 * d ≤ 9 then 2 * d else 2 * d - 9

/-- Digit value of the byte at position `pos` counted from the right
(rightmost byte = position 0). -/
def specDigitFromRight (s : GoString) (pos : Nat) : Nat :=
  s.getD (s.length - 1 - pos) 0 - 48

/-- The Luhn total: the sum over all positions counted from the right. -/
def specLuhnTotal (s : GoString) : Nat :=
  ((List.range s.length).map (fun pos => specLuhnTerm pos (specDigitFromRight s pos))).sum

/-! ## The library functions `loadBankData` and `extractBIN` call

These belong to Go's standard library, not to the repository; they are modelled
from their documented behaviour. -/

/-- The loop of `strconv.Atoi` over the digits: a byte outside `'0'`..`'9'` is a
syntax error, otherwise the value accumulates in base 10. -/
def parseDigits : GoString → Nat → Option Nat
  | [], acc => some acc
  | ch :: rest, acc =>
    if ch < 48 || ch > 57 then none else parseDigits rest (acc * 10 + (ch - 48))

/-- Model of `strconv.Atoi` on a 64-bit platform: an optional sign `+` or `-`
followed by at least one decimal digit and nothing else, the value within
`-2^63 .. 2^63 - 1`.  `none` stands for a non-nil error (syntax or range); the
callers only test `err != nil`. -/
def atoi (s : GoString) : Option Int :=
  match s with
  | [] => none
  | c :: rest =>
    if c = 45 then
      if rest = [] then none
      else match parseDigits rest 0 with
        | none => none
        | some n => if n ≤ 9223372036854775808 then some (-(n : Int)) else none
    else if c = 43 then
      if rest = [] then none
      else match parseDigits rest 0 with
        | none => none
        | some n => if n ≤ 9223372036854775807 then some (n : Int) else none
    else match parseDigits (c :: rest) 0 with
      | none => none
      | some n => if n ≤ 9223372036854775807 then some (n : Int) else none

/-- The UTF-8 encodings of the runes for which `unicode.IsSpace` holds: tab,
line feed, vertical tab, form feed, carriage return, space, U+0085, U+00A0,
U+1680, U+2000..U+200A, U+2028, U+2029, U+202F, U+205F and U+3000. -/
def spaceRunes : List GoString :=
  [[9], [10], [11], [12], [13], [32], [194, 133], [194, 160], [225, 154, 128],
   [226, 128, 128], [226, 128, 129], [226, 128, 130], [226, 128, 131], [226, 128, 132],
   [226, 128, 133], [226, 128, 134], [226, 128, 135], [226, 128, 136], [226, 128, 137],
   [226, 128, 138], [226, 128, 168], [226, 128, 169], [226, 128, 175], [226, 129, 159],
   [227, 128, 128]]

/-- Removes, up to `fuel` times, one of the byte patterns `pats` from the front
of `s`, stopping at the first position where none of them begins. -/
def stripFront (pats : List GoString) : Nat → GoString → GoString
  | 0, s => s
  | fuel + 1, s =>
    match pats.find? (fun p => p.isPrefixOf s) with
    | none => s
    | some p => stripFront pats fuel (s.drop p.length)

/-- Leading white space removed (`strings.TrimLeftFunc(s, unicode.IsSpace)`):
a rune is decoded at the front and dropped while it is white space. -/
def trimLeft (s : GoString) : GoString := stripFront spaceRunes s.length s

/-- Trailing white space removed (`strings.TrimRightFunc(s, unicode.IsSpace)`):
the last rune is decoded and dropped while it is white space. -/
def trimRight (s : GoString) : GoString :=
  (stripFront (spaceRunes.map List.reverse) s.length s.reverse).reverse

/-- Model of `strings.TrimSpace`: leading and trailing white space removed. -/
def trimSpace (s : GoString) : GoString := trimRight (trimLeft s)

/-- Model of `strings.Split(s, sep)` for a one-byte separator: the pieces of
`s` between the occurrences of `sep`, one more piece than occurrences. -/
def splitByte (sep : Nat) : GoString → List GoString
  | [] => [[]]
  | c :: cs =>
    if c = sep then [] :: splitByte sep cs
    else match splitByte sep cs with
      | [] => [[c]]
      | p :: ps => (c :: p) :: ps

/-! ## `Bank` and `loadBankData` (main.go, lines 11-65) -/

/-- The struct `Bank`. -/
structure Bank where
  Name : GoString
  BinFrom : Int
  BinTo : Int
deriving DecidableEq

/-- The errors `loadBankData` builds with `fmt.Errorf` after the file is open:
each carries the arguments formatted into its message. -/
inductive LoadError where
  | badFormat (lineNum : Nat) (line : GoString)
  | badBinFrom (lineNum : Nat) (field : GoString)
  | badBinTo (lineNum : Nat) (field : GoString)
  | fromAboveTo (lineNum : Nat) (binFrom binTo : Int)
  | readFailed
deriving DecidableEq

/-- The loop `for scanner.Scan()` of `loadBankData` and the code after it.  The
list holds the lines the scanner still yields, `lineNum` and `banks` are the
local variables; `scanFailed` says whether `scanner.Err()` is non-nil once the
scanner stops.  The result is the pair the function returns, `[]` for a nil
slice and `none` for a nil error. -/
def loadLoop (scanFailed : Bool) : List GoString → Nat → List Bank → List Bank × Option LoadError
  | [], _, banks =>
    if scanFailed then ([], some LoadError.readFailed) else (banks, none)
  | text :: rest, lineNum, banks =>
    let lineNum := lineNum + 1
    let line := trimSpace text
    if line = [] then loadLoop scanFailed rest lineNum banks
    else
      let parts := splitByte 44 line
      if parts.length ≠ 3 then ([], some (LoadError.badFormat lineNum line))
      else
        match atoi (parts.getD 1 []) with
        | none => ([], some (LoadError.badBinFrom lineNum (parts.getD 1 [])))
        | some binFrom =>
          match atoi (parts.getD 2 []) with
          | none => ([], some (LoadError.badBinTo lineNum (parts.getD 2 [])))
          | some binTo =>
            if binFrom > binTo then ([], some (LoadError.fromAboveTo lineNum binFrom binTo))
            else loadLoop scanFailed rest lineNum
              (banks ++ [{ Name := parts.getD 0 [], BinFrom := binFrom, BinTo := binTo }])

/-- Embedding of `loadBankData` once `os.Open` has succeeded: `lines` are the
lines of the file as `scanner.Text()` returns them, in order. -/
def loadBankData (lines : List GoString) (scanFailed : Bool) : List Bank × Option LoadError :=
  loadLoop scanFailed lines 0 []

/-! ### The scanner over the content of the file

`bufio.NewScanner` splits the content with `bufio.ScanLines` and holds a line,
with the line feed that ends it, in a buffer of at most
`bufio.MaxScanTokenSize` bytes. -/

/-- The constant `bufio.MaxScanTokenSize`, 64 KiB. -/
def maxScanTokenSize : Nat := 65536

/-- The helper `dropCR` of `bufio.ScanLines`: one carriage return at the end of
a line is dropped. -/
def dropCR (line : GoString) : GoString :=
  match line.reverse with
  | 13 :: rest => rest.reverse
  | _ => line

/-- The lines of the content as `bufio.ScanLines` delimits them: the pieces
between line feeds, an empty piece after the last line feed being no line. -/
def rawLines (content : GoString) : List GoString :=
  match (splitByte 10 content).reverse with
  | [] :: rest => rest.reverse
  | _ => splitByte 10 content

/-- The calls of `scanner.Scan()` over the raw lines: a line of
`maxScanTokenSize` bytes or more does not fit the buffer, the scanner stops
there with `bufio.ErrTooLong` (`true`); a shorter line is yielded by
`scanner.Text()` without its carriage return. -/
def scanTokens : List GoString → List GoString × Bool
  | [] => ([], false)
  | line :: rest =>
    if line.length ≥ maxScanTokenSize then ([], true)
    else (dropCR line :: (scanTokens rest).1, (scanTokens rest).2)

/-- The lines `scanner.Text()` yields for the content of the file, and whether
`scanner.Err()` is non-nil afterwards, when the file is read without an
input/output error. -/
def scanLines (content : GoString) : List GoString × Bool := scanTokens (rawLines content)

/-- Embedding of `loadBankData` on a file with the given content, opened and
read without an input/output error. -/
def loadBankFile (content : GoString) : List Bank × Option LoadError :=
  loadBankData (scanLines content).1 (scanLines content).2

/-! ## `extractBIN` and `identifyBank` (main.go, lines 137-156) -/

/-- Embedding of `extractBIN`; `cardNumber[:6]` is the first six bytes. -/
def extractBIN (cardNumber : GoString) : Int :=
  if cardNumber.length < 6 then -1
  else
    match atoi (cardNumber.take 6) with
    | none => -1
    | some bin => bin

/-- The string `identifyBank` returns when no range matches. -/
def unknownBank : GoString := str "Неизвестный банк"

/-- Embedding of `identifyBank`: the `for _, bank := range banks` loop returns at
the first bank whose range holds `bin`. -/
def identifyBank (bin : Int) : List Bank → GoString
  | [] => unknownBank
  | bank :: rest =>
    if bin ≥ bank.BinFrom && bin ≤ bank.BinTo then bank.Name else identifyBank bin rest

/-! ## `getUserInput` (main.go, lines 69-89) -/

/-- Model of `strings.ReplaceAll(s, old, "")` for a one-byte `old`: every
occurrence of the byte is removed. -/
def removeByte (old : Nat) (s : GoString) : GoString := s.filter (fun c => decide (c ≠ old))

/-- Embedding of `getUserInput` after the prompt is printed: `input` is what
`reader.ReadString` returned, the line with its line feed, and `readFailed`
says whether its error is non-nil. -/
def getUserInput (input : GoString) (readFailed : Bool) : GoString :=
  if readFailed then []
  else
    let input := trimSpace input
    if input = [] then []
    else
      let input := removeByte 32 input
      let input := removeByte 45 input
      input

/-! ## The table format as the specification words it -/

/-- A line is malformed: it is not blank after trimming and it does not split on
`,` into exactly 3 fields, or its second or third field does not parse as a
base-10 integer, or its low bound is greater than its high bound. -/
def specBadLine (text : GoString) : Bool :=
  let line := trimSpace text
  let parts := splitByte 44 line
  line ≠ [] &&
    (parts.length ≠ 3 ||
      match atoi (parts.getD 1 []), atoi (parts.getD 2 []) with
      | some low, some high => decide (low > high)
      | _, _ => true)

/-- The record `b` is the one written on the line `name,low,high`: the line is
the three comma-free fields joined by commas, `Name` is the first field and
`BinFrom`, `BinTo` are the integers the second and third fields denote. -/
def specRecordOf (line : GoString) (b : Bank) : Prop :=
  ∃ low high : GoString, line = b.Name ++ 44 :: (low ++ 44 :: high) ∧
    44 ∉ b.Name ∧ 44 ∉ low ∧ 44 ∉ high ∧ atoi low = some b.BinFrom ∧ atoi high = some b.BinTo

/-- The decimal digits of `n` as bytes, least significant first; `fuel` bounds
the number of digits. -/
def natDigitsRev : Nat → Nat → GoString
  | 0, _ => []
  | fuel + 1, n => (48 + n % 10) :: (if n < 10 then [] else natDigitsRev fuel (n / 10))

/-- The natural number `n` written in base 10. -/
def formatNat (n : Nat) : GoString := (natDigitsRev (n + 1) n).reverse

/-- The integer `v` written in base 10, with a leading `-` when negative. -/
def formatInt (v : Int) : GoString :=
  if v < 0 then 45 :: formatNat v.natAbs else formatNat v.toNat

/-- The record written as the single line `name,low,high`, bounds in base 10. -/
def specBankLine (b : Bank) : GoString :=
  b.Name ++ 44 :: (formatInt b.BinFrom ++ 44 :: formatInt b.BinTo)

/-- The string begins with a white-space rune, which `strings.TrimSpace` removes. -/
def startsWithSpace (s : GoString) : Bool := spaceRunes.any (fun p => p.isPrefixOf s)

/-! ## Auxiliary definitions for the proofs -/

/-- Weighted sum of the bytes at indices below `n`, visited from index `n - 1`
down to 0 with the doubling flag starting at `double`. -/
def luhnWeight (s : GoString) : Nat → Bool → Nat
  | 0, _ => 0
  | i + 1, double =>
    (if double then (if (s.getD i 0 - 48) * 2 > 9 then (s.getD i 0 - 48) * 2 - 9
      else (s.getD i 0 - 48) * 2) else s.getD i 0 - 48) + luhnWeight s i (!double)

/-- The body of the loop of `loadBankData` on one line: the error it returns
with, or the record it appends (`none` for a blank line). -/
def lineOutcome (lineNum : Nat) (text : GoString) : Except LoadError (Option Bank) :=
  if trimSpace text = [] then Except.ok none
  else if (splitByte 44 (trimSpace text)).length ≠ 3 then
    Except.error (LoadError.badFormat lineNum (trimSpace text))
  else
    match atoi ((splitByte 44 (trimSpace text)).getD 1 []) with
    | none => Except.error (LoadError.badBinFrom lineNum ((splitByte 44 (trimSpace text)).getD 1 []))
    | some binFrom =>
      match atoi ((splitByte 44 (trimSpace text)).getD 2 []) with
      | none => Except.error (LoadError.badBinTo lineNum ((splitByte 44 (trimSpace text)).getD 2 []))
      | some binTo =>
        if binFrom > binTo then Except.error (LoadError.fromAboveTo lineNum binFrom binTo)
        else Except.ok (some { Name := (splitByte 44 (trimSpace text)).getD 0 [],
                               BinFrom := binFrom, BinTo := binTo })

/-- The line number a `LoadError` formats into its message, if it has one. -/
def errorLineNum : LoadError → Option Nat
  | LoadError.badFormat lineNum _ => some lineNum
  | LoadError.badBinFrom lineNum _ => some lineNum
  | LoadError.badBinTo lineNum _ => some lineNum
  | LoadError.fromAboveTo lineNum _ _ => some lineNum
  | LoadError.readFailed => none

/-- What a digit value contributes to the sum of `validateLuhn` under the
doubling flag. -/
def luhnTerm (double : Bool) (d : Nat) : Nat :=
  if double then (if d * 2 > 9 then d * 2 - 9 else d * 2) else d

/-- Weighted sum of a string given rightmost byte first, the doubling flag
starting at `double`. -/
def luhnWeightRev : GoString → Bool → Nat
  | [], _ => 0
  | c :: cs, double => luhnTerm double (c - 48) + luhnWeightRev cs (!double)


/-! ## Theorems -/

/-! ### `validateInput` and `validateLuhn` -/

theorem isDigitByte_iff (ch : Nat) : isDigitByte ch = true ↔ 48 ≤ ch ∧ ch ≤ 57 := by
  simp only [isDigitByte, Bool.not_eq_true', Bool.or_eq_false_iff, decide_eq_false_iff_not]
  omega

theorem isDigitByte_of_not (ch : Nat) (h : ¬ (ch < 48 ∨ ch > 57)) : isDigitByte ch = true :=
  (isDigitByte_iff ch).mpr (by omega)

theorem not_isDigitByte_of (ch : Nat) (h : ch < 48 ∨ ch > 57) : isDigitByte ch ≠ true := by
  intro hd
  have := (isDigitByte_iff ch).mp hd
  omega

theorem validateInputLoop_iff (s : GoString) :
    validateInputLoop s = true ↔ ∀ c ∈ s, isDigitByte c = true := by
  induction s with
  | nil => simp [validateInputLoop]
  | cons ch rest ih =>
    by_cases h : ch < 48 ∨ ch > 57
    · have hd := not_isDigitByte_of ch h
      simp [validateInputLoop, h, hd]
    · have hd := isDigitByte_of_not ch h
      simp [validateInputLoop, h, hd, ih]

theorem luhnLoop_iff (s : GoString) (n : Nat) :
    ∀ (sum : Nat) (double : Bool), luhnLoop s n sum double = true ↔
      (∀ i, i < n → isDigitByte (s.getD i 0) = true) ∧
        (sum + luhnWeight s n double) % 10 = 0 := by
  induction n with
  | zero => intro sum double; simp [luhnLoop, luhnWeight]
  | succ n ih =>
    intro sum double
    by_cases h : s.getD n 0 < 48 ∨ s.getD n 0 > 57
    · have hd := not_isDigitByte_of _ h
      have hno : ¬ ∀ i, i < n + 1 → isDigitByte (s.getD i 0) = true :=
        fun hall => hd (hall n (Nat.lt_succ_self n))
      have hl : luhnLoop s (n + 1) sum double = false := by
        simp only [luhnLoop, Bool.or_eq_true, decide_eq_true_eq, h, if_true]
      rw [hl]
      constructor
      · intro hf; cases hf
      · intro hh; exact absurd hh.1 hno
    · have hd := isDigitByte_of_not _ h
      have hall : (∀ i, i < n + 1 → isDigitByte (s.getD i 0) = true) ↔
          (∀ i, i < n → isDigitByte (s.getD i 0) = true) := by
        constructor
        · intro hh i hi; exact hh i (Nat.lt_succ_of_lt hi)
        · intro hh i hi
          rcases Nat.lt_succ_iff_lt_or_eq.mp hi with hlt | heq
          · exact hh i hlt
          · rw [heq]; exact hd
      rw [hall]
      simp only [luhnLoop, Bool.or_eq_true, decide_eq_true_eq, h, if_false]
      rw [ih]
      simp only [luhnWeight, Nat.add_assoc]

theorem specLuhnTerm_congr (p q d : Nat) (h : p % 2 = q % 2) :
    specLuhnTerm p d = specLuhnTerm q d := by
  simp only [specLuhnTerm, h]

theorem luhnWeight_eq_sum (s : GoString) (n : Nat) :
    ∀ double : Bool, luhnWeight s n double =
      ((List.range n).map (fun j =>
        specLuhnTerm (j + (if double then 1 else 0)) (s.getD (n - 1 - j) 0 - 48))).sum := by
  induction n with
  | zero => intro double; simp [luhnWeight]
  | succ n ih =>
    intro double
    rw [List.range_succ_eq_map, List.map_cons, List.sum_cons, List.map_map, luhnWeight, ih]
    congr 1
    · cases double
      · simp [specLuhnTerm]
      · simp only [specLuhnTerm, if_true]
        have h1 : (0 + 1) % 2 = 0 ↔ False := by simp
        simp only [h1, if_false, Nat.add_sub_cancel, Nat.sub_zero]
        by_cases h : (s.getD n 0 - 48) * 2 > 9
        · have h2 : ¬ 2 * (s.getD n 0 - 48) ≤ 9 := by omega
          simp only [h, h2, if_true, if_false]
          omega
        · have h2 : 2 * (s.getD n 0 - 48) ≤ 9 := by omega
          simp only [h, h2, if_true, if_false]
          omega
    · congr 1
      apply List.map_congr_left
      intro j _
      simp only [Function.comp, Nat.succ_eq_add_one]
      have e : n + 1 - 1 - (j + 1) = n - 1 - j := by omega
      rw [e]
      apply specLuhnTerm_congr
      cases double
      · simp
      · simp; omega

theorem luhnWeight_length (s : GoString) :
    luhnWeight s s.length false = specLuhnTotal s := by
  rw [luhnWeight_eq_sum]
  simp only [specLuhnTotal, specDigitFromRight]
  simp

theorem forall_getD_iff (s : GoString) :
    (∀ i, i < s.length → isDigitByte (s.getD i 0) = true) ↔
      ∀ c ∈ s, isDigitByte c = true := by
  constructor
  · intro h c hc
    obtain ⟨i, hi, rfl⟩ := List.getElem_of_mem hc
    have := h i hi
    rwa [List.getD_eq_getElem _ _ hi] at this
  · intro h i hi
    rw [List.getD_eq_getElem _ _ hi]
    exact h _ (List.getElem_mem _)

theorem validateLuhn_true_iff (s : GoString) :
    validateLuhn s = true ↔
      2 ≤ s.length ∧ (∀ c ∈ s, isDigitByte c = true) ∧ specLuhnTotal s % 10 = 0 := by
  unfold validateLuhn
  by_cases h : s.length < 2
  · simp only [h, if_true]
    constructor
    · intro hf; cases hf
    · intro hh; omega
  · simp only [h, if_false]
    rw [luhnLoop_iff, forall_getD_iff, luhnWeight_length, Nat.zero_add]
    constructor
    · intro hh; exact ⟨by omega, hh⟩
    · intro hh; exact hh.2

/-! ### Strings of Unicode characters

A text of Unicode characters is stored as its UTF-8 bytes.  A character outside
ASCII contributes bytes that are not digits, so "every character is a decimal
digit" and the length in characters may be read on the characters as well as on
the bytes. -/

theorem utf8Bytes_ascii (c : Nat) (h : c < 128) : utf8Bytes c = [c] := by
  simp [utf8Bytes, h]

theorem utf8Bytes_not_digit (c : Nat) (h : 128 ≤ c) :
    ∃ b ∈ utf8Bytes c, isDigitByte b = false := by
  have key : ∀ b, 58 ≤ b → isDigitByte b = false := by
    intro b hb
    cases hd : isDigitByte b with
    | false => rfl
    | true =>
      have := (isDigitByte_iff b).mp hd
      omega
  unfold utf8Bytes
  have h0 : ¬ c < 128 := by omega
  simp only [h0, if_false]
  by_cases h1 : c < 2048
  · simp only [h1, if_true]
    exact ⟨192 + c / 64, List.mem_cons_self _ _, key _ (by omega)⟩
  · simp only [h1, if_false]
    by_cases h2 : c < 65536
    · simp only [h2, if_true]
      exact ⟨224 + c / 4096, List.mem_cons_self _ _, key _ (by omega)⟩
    · simp only [h2, if_false]
      exact ⟨240 + c / 262144, List.mem_cons_self _ _, key _ (by omega)⟩

theorem str_cons (c : Char) (l : List Char) :
    str (String.mk (c :: l)) = utf8Bytes c.toNat ++ str (String.mk l) := rfl

theorem str_digits_iff (l : List Char) :
    (∀ b ∈ str (String.mk l), isDigitByte b = true) ↔
      ∀ c ∈ l, 48 ≤ c.toNat ∧ c.toNat ≤ 57 := by
  induction l with
  | nil =>
    constructor
    · intro _ c hc; cases hc
    · intro _ b hb; cases hb
  | cons c l ih =>
    rw [str_cons]
    constructor
    · intro h
      have hc : 48 ≤ c.toNat ∧ c.toNat ≤ 57 := by
        by_cases h128 : c.toNat < 128
        · have := h c.toNat (by rw [utf8Bytes_ascii _ h128]; simp)
          exact (isDigitByte_iff _).mp this
        · obtain ⟨b, hb, hd⟩ := utf8Bytes_not_digit c.toNat (by omega)
          have := h b (List.mem_append_left _ hb)
          rw [hd] at this
          cases this
      intro x hx
      rcases List.mem_cons.mp hx with rfl | hx
      · exact hc
      · exact ih.mp (fun b hb => h b (List.mem_append_right _ hb)) x hx
    · intro h b hb
      have hc := h c (List.mem_cons_self _ _)
      rw [utf8Bytes_ascii _ (by omega)] at hb
      rcases List.mem_append.mp hb with hb | hb
      · rw [List.mem_singleton.mp hb]
        exact (isDigitByte_iff _).mpr hc
      · exact ih.mpr (fun x hx => h x (List.mem_cons_of_mem _ hx)) b hb

theorem str_of_digits (l : List Char) (h : ∀ c ∈ l, 48 ≤ c.toNat ∧ c.toNat ≤ 57) :
    str (String.mk l) = l.map Char.toNat := by
  induction l with
  | nil => rfl
  | cons c l ih =>
    have hc := h c (List.mem_cons_self _ _)
    rw [str_cons, utf8Bytes_ascii _ (by omega), ih (fun x hx => h x (List.mem_cons_of_mem _ hx))]
    rfl

theorem validateLuhn_text_iff (t : String) :
    validateLuhn (str t) = true ↔
      2 ≤ t.length ∧ (∀ c ∈ t.data, 48 ≤ c.toNat ∧ c.toNat ≤ 57) ∧
        specLuhnTotal (t.data.map Char.toNat) % 10 = 0 := by
  cases t with
  | mk l =>
    rw [validateLuhn_true_iff, str_digits_iff]
    show _ ↔ 2 ≤ l.length ∧ _
    constructor
    · rintro ⟨h1, h2, h3⟩
      rw [str_of_digits l h2] at h1 h3
      rw [List.length_map] at h1
      exact ⟨h1, h2, h3⟩
    · rintro ⟨h1, h2, h3⟩
      rw [str_of_digits l h2, List.length_map]
      exact ⟨h1, h2, h3⟩

theorem validateInput_true_iff (s : GoString) :
    validateInput s = true ↔
      (13 ≤ s.length ∧ s.length ≤ 19) ∧ ∀ c ∈ s, isDigitByte c = true := by
  unfold validateInput
  by_cases h : s.length < 13 ∨ s.length > 19
  · simp only [Bool.or_eq_true, decide_eq_true_eq, h, if_true]
    constructor
    · intro hf; cases hf
    · intro hh; omega
  · simp only [Bool.or_eq_true, decide_eq_true_eq, h, if_false]
    rw [validateInputLoop_iff]
    constructor
    · intro hh; exact ⟨by omega, hh⟩
    · intro hh; exact hh.2

theorem validateInput_text_iff (t : String) :
    validateInput (str t) = true ↔
      (13 ≤ t.length ∧ t.length ≤ 19) ∧ ∀ c ∈ t.data, 48 ≤ c.toNat ∧ c.toNat ≤ 57 := by
  cases t with
  | mk l =>
    rw [validateInput_true_iff, str_digits_iff]
    show _ ↔ (13 ≤ l.length ∧ l.length ≤ 19) ∧ _
    constructor
    · rintro ⟨h1, h2⟩
      rw [str_of_digits l h2, List.length_map] at h1
      exact ⟨h1, h2⟩
    · rintro ⟨h1, h2⟩
      rw [str_of_digits l h2, List.length_map]
      exact ⟨h1, h2⟩

/-- C1: `validateLuhn s` is true exactly when `s` has at least 2 bytes, every
byte is a decimal digit `'0'`-`'9'`, and the Luhn total is divisible by 10,
where the Luhn total sums, over the positions counted from the right, the digit
value at even positions and its reduced double at odd positions; the rightmost
digit (position 0) enters the total undoubled.  The same holds for a text read
character by character. -/
theorem validateLuhn_iff_luhnTotal (s : GoString) :
    (validateLuhn s = true ↔
      2 ≤ s.length ∧ (∀ c ∈ s, isDigitByte c = true) ∧ specLuhnTotal s % 10 = 0) ∧
    (∀ d, specLuhnTerm 0 d = d) ∧
    (∀ t : String, validateLuhn (str t) = true ↔
      2 ≤ t.length ∧ (∀ c ∈ t.data, 48 ≤ c.toNat ∧ c.toNat ≤ 57) ∧
        specLuhnTotal (t.data.map Char.toNat) % 10 = 0) :=
  ⟨validateLuhn_true_iff s, fun d => by simp [specLuhnTerm], validateLuhn_text_iff⟩

/-- Witness for C1: the classic vector has 11 digits and Luhn total 70. -/
theorem validateLuhn_iff_luhnTotal_witness :
    specLuhnTotal (str "79927398713") = 70 ∧ validateLuhn (str "79927398713") = true :=
  ⟨by decide, ((validateLuhn_iff_luhnTotal (str "79927398713")).1).mpr (by decide)⟩

/-- C2: `validateInput s` is true if and only if the length of `s` is between
13 and 19 inclusive and every byte of `s` is a decimal digit `'0'`-`'9'`; for
every other length, and for every string with a non-digit byte, it is false.
The same holds for a text read character by character. -/
theorem validateInput_iff (s : GoString) :
    (validateInput s = true ↔
      (13 ≤ s.length ∧ s.length ≤ 19) ∧ ∀ c ∈ s, isDigitByte c = true) ∧
    (¬ (13 ≤ s.length ∧ s.length ≤ 19) → validateInput s = false) ∧
    ((∃ c ∈ s, isDigitByte c = false) → validateInput s = false) ∧
    (∀ t : String, validateInput (str t) = true ↔
      (13 ≤ t.length ∧ t.length ≤ 19) ∧ ∀ c ∈ t.data, 48 ≤ c.toNat ∧ c.toNat ≤ 57) := by
  have key := validateInput_true_iff s
  refine ⟨key, ?_, ?_, validateInput_text_iff⟩
  · intro hlen
    cases hv : validateInput s with
    | false => rfl
    | true => exact absurd (key.mp hv).1 hlen
  · rintro ⟨c, hc, hd⟩
    cases hv : validateInput s with
    | false => rfl
    | true =>
      have := (key.mp hv).2 c hc
      rw [hd] at this
      cases this

/-- Witness for C2: a 16-digit number is accepted, a 12-digit one and one with
a letter are rejected. -/
theorem validateInput_iff_witness :
    validateInput (str "4539148803436467") = true ∧
    validateInput (str "453914880343") = false ∧
    validateInput (str "45391488034364a7") = false :=
  ⟨((validateInput_iff (str "4539148803436467")).1).mpr (by decide),
   (validateInput_iff (str "453914880343")).2.1 (by decide),
   (validateInput_iff (str "45391488034364a7")).2.2.1 (by decide)⟩

/-- C10: `validateLuhn` fails closed: a string with fewer than 2 bytes, or with
a byte that is not a decimal digit at any position, is rejected; so is a text
with fewer than 2 characters or with a character that is not a decimal digit. -/
theorem validateLuhn_fails_closed :
    (∀ s : GoString, (s.length < 2 ∨ ∃ c ∈ s, isDigitByte c = false) →
      validateLuhn s = false) ∧
    (∀ t : String, (t.length < 2 ∨ ∃ c ∈ t.data, ¬ (48 ≤ c.toNat ∧ c.toNat ≤ 57)) →
      validateLuhn (str t) = false) := by
  constructor
  · intro s h
    cases hv : validateLuhn s with
    | false => rfl
    | true =>
      have hh := (validateLuhn_true_iff s).mp hv
      rcases h with hlen | ⟨c, hc, hd⟩
      · omega
      · have := hh.2.1 c hc
        rw [hd] at this
        cases this
  · intro t h
    cases hv : validateLuhn (str t) with
    | false => rfl
    | true =>
      have hh := (validateLuhn_text_iff t).mp hv
      rcases h with hlen | ⟨c, hc, hd⟩
      · omega
      · exact absurd (hh.2.1 c hc) hd

/-- Witness for C10: the empty string, a single digit, a number with a letter
in the middle and a single two-byte character are all rejected. -/
theorem validateLuhn_fails_closed_witness :
    validateLuhn (str "") = false ∧ validateLuhn (str "0") = false ∧
      validateLuhn (str "45391488x3436467") = false ∧ validateLuhn (str "é") = false :=
  ⟨validateLuhn_fails_closed.1 (str "") (Or.inl (by decide)),
   validateLuhn_fails_closed.1 (str "0") (Or.inl (by decide)),
   validateLuhn_fails_closed.1 (str "45391488x3436467") (Or.inr (by decide)),
   validateLuhn_fails_closed.2 "é" (Or.inl (by decide))⟩

/-! ### `identifyBank` -/

theorem identifyBank_cons (bin : Int) (bank : Bank) (rest : List Bank) :
    identifyBank bin (bank :: rest) =
      if bank.BinFrom ≤ bin ∧ bin ≤ bank.BinTo then bank.Name else identifyBank bin rest := by
  by_cases h : bank.BinFrom ≤ bin ∧ bin ≤ bank.BinTo
  · simp [identifyBank, h]
  · rw [if_neg h]
    have : ¬ (bin ≥ bank.BinFrom ∧ bin ≤ bank.BinTo) := h
    simp only [identifyBank, Bool.and_eq_true, decide_eq_true_eq, this, if_false]

theorem identifyBank_no_match (bin : Int) (table : List Bank)
    (h : ∀ b ∈ table, ¬ (b.BinFrom ≤ bin ∧ bin ≤ b.BinTo)) :
    identifyBank bin table = unknownBank := by
  induction table with
  | nil => rfl
  | cons bank rest ih =>
    rw [identifyBank_cons, if_neg (h bank (List.mem_cons_self _ _))]
    exact ih (fun b hb => h b (List.mem_cons_of_mem _ hb))

theorem identifyBank_at_first (bin : Int) (pre : List Bank) (b : Bank) (post : List Bank)
    (hpre : ∀ x ∈ pre, ¬ (x.BinFrom ≤ bin ∧ bin ≤ x.BinTo))
    (hb : b.BinFrom ≤ bin ∧ bin ≤ b.BinTo) :
    identifyBank bin (pre ++ b :: post) = b.Name := by
  induction pre with
  | nil => rw [List.nil_append, identifyBank_cons, if_pos hb]
  | cons x xs ih =>
    rw [List.cons_append, identifyBank_cons, if_neg (hpre x (List.mem_cons_self _ _))]
    exact ih (fun y hy => hpre y (List.mem_cons_of_mem _ hy))

theorem identifyBank_result (bin : Int) (table : List Bank) :
    identifyBank bin table = unknownBank ∨
      ∃ b ∈ table, (b.BinFrom ≤ bin ∧ bin ≤ b.BinTo) ∧ identifyBank bin table = b.Name := by
  induction table with
  | nil => exact Or.inl rfl
  | cons bank rest ih =>
    by_cases h : bank.BinFrom ≤ bin ∧ bin ≤ bank.BinTo
    · exact Or.inr ⟨bank, List.mem_cons_self _ _, h, by rw [identifyBank_cons, if_pos h]⟩
    · rw [identifyBank_cons, if_neg h]
      rcases ih with hu | ⟨b, hb, hr, he⟩
      · exact Or.inl hu
      · exact Or.inr ⟨b, List.mem_cons_of_mem _ hb, hr, he⟩

/-- C3: `identifyBank bin table` returns the `Name` of the first record in table
order whose range satisfies `BinFrom <= bin <= BinTo`, even when later records
also contain `bin` (the two-bank table of the specification gives "BankA" for
400600); when no record contains `bin`, and so for every `bin` on the empty
table, it returns the unknown-bank result. -/
theorem identifyBank_first_match (bin : Int) (table : List Bank) :
    (∀ (pre : List Bank) (b : Bank) (post : List Bank), table = pre ++ b :: post →
      (∀ x ∈ pre, ¬ (x.BinFrom ≤ bin ∧ bin ≤ x.BinTo)) →
      (b.BinFrom ≤ bin ∧ bin ≤ b.BinTo) → identifyBank bin table = b.Name) ∧
    ((∀ b ∈ table, ¬ (b.BinFrom ≤ bin ∧ bin ≤ b.BinTo)) →
      identifyBank bin table = unknownBank) ∧
    identifyBank bin [] = unknownBank ∧
    identifyBank 400600
      [⟨str "BankA", 400000, 400999⟩, ⟨str "BankB", 400500, 401000⟩] = str "BankA" ∧
    unknownBank = str "Неизвестный банк" := by
  refine ⟨?_, identifyBank_no_match bin table, rfl, by decide, rfl⟩
  intro pre b post ht hpre hb
  rw [ht]
  exact identifyBank_at_first bin pre b post hpre hb

/-- Witness for C3: on a table whose second and third ranges both hold 400600,
the second record names the result; a table with no matching range gives the
unknown-bank result. -/
theorem identifyBank_first_match_witness :
    identifyBank 400600 [⟨str "BankZ", 1, 2⟩, ⟨str "BankA", 400000, 400999⟩,
      ⟨str "BankB", 400500, 401000⟩] = str "BankA" ∧
    identifyBank 7 [⟨str "BankZ", 1, 2⟩] = unknownBank :=
  ⟨(identifyBank_first_match 400600 [⟨str "BankZ", 1, 2⟩, ⟨str "BankA", 400000, 400999⟩,
      ⟨str "BankB", 400500, 401000⟩]).1 [⟨str "BankZ", 1, 2⟩] ⟨str "BankA", 400000, 400999⟩
      [⟨str "BankB", 400500, 401000⟩] rfl (by decide) (by decide),
   (identifyBank_first_match 7 [⟨str "BankZ", 1, 2⟩]).2.1 (by decide)⟩

/-- C8, as stated, fails: a table may hold a bank whose name is the unknown-bank
string itself (the loader accepts the line "Неизвестный банк,1,2"), and then
`identifyBank` returns that string although a range matches. -/
theorem identifyBank_unknown_collision :
    loadBankData [str "Неизвестный банк,1,2"] false = ([⟨unknownBank, 1, 2⟩], none) ∧
    identifyBank 1 [⟨unknownBank, 1, 2⟩] = unknownBank ∧
    ¬ (∀ b ∈ [(⟨unknownBank, 1, 2⟩ : Bank)], ¬ (b.BinFrom ≤ 1 ∧ (1 : Int) ≤ b.BinTo)) := by
  refine ⟨by decide, by decide, ?_⟩
  intro h
  exact h ⟨unknownBank, 1, 2⟩ (List.mem_singleton.mpr rfl) (by decide)

/-- C8, amended: for every table none of whose records is named with the
unknown-bank string, `identifyBank bin table` is the unknown-bank result if and
only if no record of the table satisfies `BinFrom <= bin <= BinTo`. -/
theorem identifyBank_unknown_iff (bin : Int) (table : List Bank)
    (hname : ∀ b ∈ table, b.Name ≠ unknownBank) :
    identifyBank bin table = unknownBank ↔
      ∀ b ∈ table, ¬ (b.BinFrom ≤ bin ∧ bin ≤ b.BinTo) := by
  constructor
  · intro hu
    induction table with
    | nil => intro b hb; cases hb
    | cons bank rest ih =>
      by_cases h : bank.BinFrom ≤ bin ∧ bin ≤ bank.BinTo
      · rw [identifyBank_cons, if_pos h] at hu
        exact absurd hu (hname bank (List.mem_cons_self _ _))
      · rw [identifyBank_cons, if_neg h] at hu
        intro b hb
        rcases List.mem_cons.mp hb with rfl | hb
        · exact h
        · exact ih (fun x hx => hname x (List.mem_cons_of_mem _ hx)) hu b hb
  · exact identifyBank_no_match bin table

/-- Witness for C8 amended, on the two-bank table of the specification. -/
theorem identifyBank_unknown_iff_witness :
    identifyBank 5 [⟨str "BankA", 400000, 400999⟩, ⟨str "BankB", 400500, 401000⟩]
      = unknownBank :=
  (identifyBank_unknown_iff 5 [⟨str "BankA", 400000, 400999⟩, ⟨str "BankB", 400500, 401000⟩]
    (by decide)).mpr (by decide)

/-- C9, as stated, fails: `strconv.Atoi` accepts a sign, so the loader returns
a table with the range -5..5 for the line "X,-5,5", and `identifyBank` finds
the sentinel -1 in it. -/
theorem identifyBank_sentinel_matches :
    loadBankData [str "X,-5,5"] false = ([⟨str "X", -5, 5⟩], none) ∧
    identifyBank (-1) [⟨str "X", -5, 5⟩] = str "X" ∧ str "X" ≠ unknownBank := by
  decide

/-! ### `extractBIN` -/

theorem parseDigits_cons_digit (ch : Nat) (rest : GoString) (acc : Nat)
    (h : isDigitByte ch = true) :
    parseDigits (ch :: rest) acc = parseDigits rest (acc * 10 + (ch - 48)) := by
  have h' := (isDigitByte_iff ch).mp h
  have hn : ¬ (ch < 48 ∨ ch > 57) := by omega
  simp only [parseDigits, Bool.or_eq_true, decide_eq_true_eq, hn, if_false]

theorem atoi_six_digits (a b c d e f : Nat)
    (ha : isDigitByte a = true) (hb : isDigitByte b = true) (hc : isDigitByte c = true)
    (hd : isDigitByte d = true) (he : isDigitByte e = true) (hf : isDigitByte f = true) :
    atoi [a, b, c, d, e, f] =
      some (((a - 48) * 100000 + (b - 48) * 10000 + (c - 48) * 1000 + (d - 48) * 100 +
        (e - 48) * 10 + (f - 48) : Nat) : Int) := by
  have ha' := (isDigitByte_iff a).mp ha
  have hb' := (isDigitByte_iff b).mp hb
  have hc' := (isDigitByte_iff c).mp hc
  have hd' := (isDigitByte_iff d).mp hd
  have he' := (isDigitByte_iff e).mp he
  have hf' := (isDigitByte_iff f).mp hf
  have h45 : a ≠ 45 := by omega
  have h43 : a ≠ 43 := by omega
  have hp : parseDigits [a, b, c, d, e, f] 0 =
      some ((a - 48) * 100000 + (b - 48) * 10000 + (c - 48) * 1000 + (d - 48) * 100 +
        (e - 48) * 10 + (f - 48)) := by
    rw [parseDigits_cons_digit a _ _ ha, parseDigits_cons_digit b _ _ hb,
      parseDigits_cons_digit c _ _ hc, parseDigits_cons_digit d _ _ hd,
      parseDigits_cons_digit e _ _ he, parseDigits_cons_digit f _ _ hf, parseDigits]
    congr 1
    omega
  have hr : (a - 48) * 100000 + (b - 48) * 10000 + (c - 48) * 1000 + (d - 48) * 100 +
      (e - 48) * 10 + (f - 48) ≤ 9223372036854775807 := by omega
  simp only [atoi, h45, h43, if_false, hp, hr, if_true]

/-- C4: for every string whose first six bytes are decimal digits, `extractBIN`
returns the base-10 value of those six digits, leading zeros contributing
nothing: "411111111111111" gives 411111 and every string beginning with
"004000" gives 4000. -/
theorem extractBIN_six_digits :
    (∀ (s : GoString), 6 ≤ s.length → (∀ i, i < 6 → isDigitByte (s.getD i 0) = true) →
      extractBIN s =
        (((s.getD 0 0 - 48) * 100000 + (s.getD 1 0 - 48) * 10000 + (s.getD 2 0 - 48) * 1000 +
          (s.getD 3 0 - 48) * 100 + (s.getD 4 0 - 48) * 10 + (s.getD 5 0 - 48) : Nat) : Int)) ∧
    extractBIN (str "411111111111111") = 411111 ∧
    (∀ rest : GoString, extractBIN (str "004000" ++ rest) = 4000) := by
  have main : ∀ (s : GoString), 6 ≤ s.length →
      (∀ i, i < 6 → isDigitByte (s.getD i 0) = true) →
      extractBIN s =
        (((s.getD 0 0 - 48) * 100000 + (s.getD 1 0 - 48) * 10000 + (s.getD 2 0 - 48) * 1000 +
          (s.getD 3 0 - 48) * 100 + (s.getD 4 0 - 48) * 10 + (s.getD 5 0 - 48) : Nat) : Int) := by
    intro s hlen hdig
    match s, hlen, hdig with
    | a :: b :: c :: d :: e :: f :: rest, _, hdig =>
      have ha := hdig 0 (by omega)
      have hb := hdig 1 (by omega)
      have hc := hdig 2 (by omega)
      have hd := hdig 3 (by omega)
      have he := hdig 4 (by omega)
      have hf := hdig 5 (by omega)
      simp only [List.getD_cons_zero, List.getD_cons_succ] at ha hb hc hd he hf ⊢
      have hl : ¬ (a :: b :: c :: d :: e :: f :: rest).length < 6 := by
        simp only [List.length_cons]; omega
      have ht : (a :: b :: c :: d :: e :: f :: rest).take 6 = [a, b, c, d, e, f] := by
        simp [List.take]
      simp only [extractBIN, hl, if_false, ht, atoi_six_digits a b c d e f ha hb hc hd he hf]
  refine ⟨main, by decide, ?_⟩
  intro rest
  have e : str "004000" = [48, 48, 52, 48, 48, 48] := by decide
  rw [e]
  have hm := main ([48, 48, 52, 48, 48, 48] ++ rest)
    (by simp only [List.length_append, List.length_cons, List.length_nil]; omega)
    (by
      intro i hi
      interval_cases i <;> rfl)
  rw [hm]
  simp only [List.cons_append, List.getD_cons_zero, List.getD_cons_succ]
  norm_num

/-- Witness for C4: the card number of the specification's example. -/
theorem extractBIN_six_digits_witness : extractBIN (str "4111112222222") = 411111 :=
  (extractBIN_six_digits.1 (str "4111112222222") (by decide) (by decide)).trans (by decide)

/-! ### `loadBankData` -/

theorem loadLoop_cons (scanFailed : Bool) (text : GoString) (rest : List GoString)
    (lineNum : Nat) (banks : List Bank) :
    loadLoop scanFailed (text :: rest) lineNum banks =
      match lineOutcome (lineNum + 1) text with
      | Except.error e => ([], some e)
      | Except.ok none => loadLoop scanFailed rest (lineNum + 1) banks
      | Except.ok (some b) => loadLoop scanFailed rest (lineNum + 1) (banks ++ [b]) := by
  unfold lineOutcome
  rw [loadLoop]
  by_cases h1 : trimSpace text = []
  · simp only [h1, if_true]
  · simp only [h1, if_false]
    by_cases h2 : (splitByte 44 (trimSpace text)).length ≠ 3
    · simp only [h2, if_true, ne_eq, not_false_eq_true]
    · simp only [h2, if_false, ne_eq, not_true_eq_false]
      cases h3 : atoi ((splitByte 44 (trimSpace text)).getD 1 []) with
      | none => rfl
      | some binFrom =>
        cases h4 : atoi ((splitByte 44 (trimSpace text)).getD 2 []) with
        | none => rfl
        | some binTo =>
          by_cases h5 : binFrom > binTo
          · simp only [h5, if_true]
          · simp only [h5, if_false]

theorem specBadLine_iff (lineNum : Nat) (text : GoString) :
    specBadLine text = true ↔ ∃ e, lineOutcome lineNum text = Except.error e := by
  unfold specBadLine lineOutcome
  dsimp only
  generalize atoi ((splitByte 44 (trimSpace text)).getD 1 []) = a1
  generalize atoi ((splitByte 44 (trimSpace text)).getD 2 []) = a2
  generalize (splitByte 44 (trimSpace text)).getD 1 [] = f1
  generalize (splitByte 44 (trimSpace text)).getD 2 [] = f2
  generalize (splitByte 44 (trimSpace text)).getD 0 [] = f0
  by_cases h1 : trimSpace text = []
  · simp [h1]
  · by_cases h2 : (splitByte 44 (trimSpace text)).length ≠ 3
    · simp [h1, h2]
    · cases a1 with
      | none => simp [h1, h2]
      | some binFrom =>
        cases a2 with
        | none => simp [h1, h2]
        | some binTo =>
          by_cases h5 : binFrom > binTo
          · simp [h1, h2, h5]
          · simp [h1, h2, h5]

theorem loadLoop_error_nil (scanFailed : Bool) (lines : List GoString) :
    ∀ (lineNum : Nat) (banks : List Bank),
      (loadLoop scanFailed lines lineNum banks).2 ≠ none →
        (loadLoop scanFailed lines lineNum banks).1 = [] := by
  induction lines with
  | nil =>
    intro lineNum banks h
    cases scanFailed
    · simp [loadLoop] at h
    · simp [loadLoop]
  | cons text rest ih =>
    intro lineNum banks
    rw [loadLoop_cons]
    cases h : lineOutcome (lineNum + 1) text with
    | error e => intro _; rfl
    | ok o =>
      cases o with
      | none => exact ih _ _
      | some b => exact ih _ _

theorem loadLoop_bad (scanFailed : Bool) (lines : List GoString)
    (hbad : ∃ l ∈ lines, specBadLine l = true) :
    ∀ (lineNum : Nat) (banks : List Bank),
      (loadLoop scanFailed lines lineNum banks).2 ≠ none := by
  induction lines with
  | nil => obtain ⟨l, hl, _⟩ := hbad; cases hl
  | cons text rest ih =>
    intro lineNum banks
    rw [loadLoop_cons]
    cases h : lineOutcome (lineNum + 1) text with
    | error e => simp
    | ok o =>
      have hrest : ∃ l ∈ rest, specBadLine l = true := by
        obtain ⟨l, hl, hb⟩ := hbad
        rcases List.mem_cons.mp hl with rfl | hl
        · obtain ⟨e, he⟩ := (specBadLine_iff (lineNum + 1) l).mp hb
          rw [h] at he
          cases he
        · exact ⟨l, hl, hb⟩
      cases o with
      | none => exact ih hrest _ _
      | some b => exact ih hrest _ _

theorem loadLoop_good (lines : List GoString)
    (hgood : ∀ l ∈ lines, specBadLine l = false) :
    ∀ (lineNum : Nat) (banks : List Bank), (loadLoop false lines lineNum banks).2 = none := by
  induction lines with
  | nil => intro lineNum banks; simp [loadLoop]
  | cons text rest ih =>
    intro lineNum banks
    rw [loadLoop_cons]
    have hrest : ∀ l ∈ rest, specBadLine l = false :=
      fun l hl => hgood l (List.mem_cons_of_mem _ hl)
    cases h : lineOutcome (lineNum + 1) text with
    | error e =>
      have := (specBadLine_iff (lineNum + 1) text).mpr ⟨e, h⟩
      rw [hgood text (List.mem_cons_self _ _)] at this
      cases this
    | ok o =>
      cases o with
      | none => exact ih hrest _ _
      | some b => exact ih hrest _ _

theorem loadLoop_good_result (scanFailed : Bool) (lines : List GoString)
    (hgood : ∀ l ∈ lines, specBadLine l = false) :
    ∀ (lineNum : Nat) (banks : List Bank),
      (loadLoop scanFailed lines lineNum banks).2 =
        if scanFailed then some LoadError.readFailed else none := by
  induction lines with
  | nil =>
    intro lineNum banks
    cases scanFailed
    · simp [loadLoop]
    · simp [loadLoop]
  | cons text rest ih =>
    intro lineNum banks
    rw [loadLoop_cons]
    have hrest : ∀ l ∈ rest, specBadLine l = false :=
      fun l hl => hgood l (List.mem_cons_of_mem _ hl)
    cases h : lineOutcome (lineNum + 1) text with
    | error e =>
      have := (specBadLine_iff (lineNum + 1) text).mpr ⟨e, h⟩
      rw [hgood text (List.mem_cons_self _ _)] at this
      cases this
    | ok o =>
      cases o with
      | none => exact ih hrest _ _
      | some b => exact ih hrest _ _

/-- C5, amended: the table parser of `loadBankData` is all-or-nothing.  If any
line is malformed (not blank after trimming, and not exactly 3 comma-separated
fields, or a bound that does not parse, or low above high), the load returns an
error and a nil table, however many valid lines precede or follow; whenever an
error is returned the table is nil; and if no line is malformed, the load
succeeds when the scanner reports no error, and only then: when it reports one,
the load returns the read error and a nil table. -/
theorem loadBankData_all_or_nothing (lines : List GoString) (scanFailed : Bool) :
    ((∃ l ∈ lines, specBadLine l = true) →
      (loadBankData lines scanFailed).1 = [] ∧ (loadBankData lines scanFailed).2 ≠ none) ∧
    ((loadBankData lines scanFailed).2 ≠ none → (loadBankData lines scanFailed).1 = []) ∧
    ((∀ l ∈ lines, specBadLine l = false) → (loadBankData lines false).2 = none) ∧
    ((∀ l ∈ lines, specBadLine l = false) →
      ((loadBankData lines scanFailed).2 = none ↔ scanFailed = false)) ∧
    ((∀ l ∈ lines, specBadLine l = false) →
      loadBankData lines true = ([], some LoadError.readFailed)) := by
  refine ⟨fun hbad => ?_, loadLoop_error_nil scanFailed lines 0 [], fun hgood => ?_,
    fun hgood => ?_, fun hgood => ?_⟩
  · have h2 := loadLoop_bad scanFailed lines hbad 0 []
    exact ⟨loadLoop_error_nil scanFailed lines 0 [] h2, h2⟩
  · exact loadLoop_good lines hgood 0 []
  · unfold loadBankData
    rw [loadLoop_good_result scanFailed lines hgood 0 []]
    cases scanFailed <;> simp
  · have h2 : (loadLoop true lines 0 []).2 = some LoadError.readFailed := by
      rw [loadLoop_good_result true lines hgood 0 []]
      rfl
    have h1 : (loadLoop true lines 0 []).1 = [] :=
      loadLoop_error_nil true lines 0 [] (by rw [h2]; simp)
    unfold loadBankData
    exact Prod.ext h1 h2

/-- Witness for C5: one malformed line among ten valid ones yields a nil table
and an error; the ten valid lines alone load. -/
theorem loadBankData_all_or_nothing_witness :
    ((loadBankData [str "A,1,2", str "B,3,4", str "C,5,6", str "D,7,8", str "E,9,10",
        str "F,11,x", str "G,13,14", str "H,15,16", str "I,17,18", str "J,19,20",
        str "K,21,22"] false).1 = [] ∧
      (loadBankData [str "A,1,2", str "B,3,4", str "C,5,6", str "D,7,8", str "E,9,10",
        str "F,11,x", str "G,13,14", str "H,15,16", str "I,17,18", str "J,19,20",
        str "K,21,22"] false).2 ≠ none) ∧
    (loadBankData [str "A,1,2", str "B,3,4", str "C,5,6", str "D,7,8", str "E,9,10",
        str "G,13,14", str "H,15,16", str "I,17,18", str "J,19,20", str "K,21,22"] false).2
      = none :=
  ⟨(loadBankData_all_or_nothing [str "A,1,2", str "B,3,4", str "C,5,6", str "D,7,8",
        str "E,9,10", str "F,11,x", str "G,13,14", str "H,15,16", str "I,17,18", str "J,19,20",
        str "K,21,22"] false).1 ⟨str "F,11,x", by decide, by decide⟩,
   (loadBankData_all_or_nothing [str "A,1,2", str "B,3,4", str "C,5,6", str "D,7,8",
        str "E,9,10", str "G,13,14", str "H,15,16", str "I,17,18", str "J,19,20",
        str "K,21,22"] false).2.2.1 (by decide)⟩

theorem splitByte_ne_nil (sep : Nat) (s : GoString) : splitByte sep s ≠ [] := by
  cases s with
  | nil => simp [splitByte]
  | cons c cs =>
    by_cases h : c = sep
    · simp [splitByte, h]
    · cases hs : splitByte sep cs with
      | nil => simp [splitByte, h, hs]
      | cons p ps => simp [splitByte, h, hs]

theorem splitByte_cons_not_sep (sep c : Nat) (cs p : GoString) (ps : List GoString)
    (h : c ≠ sep) (hs : splitByte sep cs = p :: ps) :
    splitByte sep (c :: cs) = (c :: p) :: ps := by
  simp only [splitByte, h, if_false, hs]

/-- The first piece of a split holds no separator; the string is that piece
alone, or the piece, a separator, and a remainder whose split is the tail. -/
theorem splitByte_head (sep : Nat) (s : GoString) :
    ∀ (p : GoString) (ps : List GoString), splitByte sep s = p :: ps →
      sep ∉ p ∧ ((ps = [] ∧ s = p) ∨
        ∃ rest, s = p ++ sep :: rest ∧ splitByte sep rest = ps) := by
  induction s with
  | nil =>
    intro p ps h
    simp only [splitByte, List.cons.injEq] at h
    obtain ⟨rfl, rfl⟩ := h
    exact ⟨by simp, Or.inl ⟨rfl, rfl⟩⟩
  | cons c cs ih =>
    intro p ps h
    by_cases hc : c = sep
    · simp only [splitByte, hc, if_true, List.cons.injEq] at h
      obtain ⟨rfl, rfl⟩ := h
      exact ⟨by simp, Or.inr ⟨cs, by simp [hc], rfl⟩⟩
    · cases hs : splitByte sep cs with
      | nil => exact absurd hs (splitByte_ne_nil sep cs)
      | cons q qs =>
        rw [splitByte_cons_not_sep sep c cs q qs hc hs] at h
        simp only [List.cons.injEq] at h
        obtain ⟨rfl, rfl⟩ := h
        obtain ⟨hq, hrest⟩ := ih q qs hs
        refine ⟨?_, ?_⟩
        · intro hm
          rcases List.mem_cons.mp hm with heq | hm
          · exact hc heq.symm
          · exact hq hm
        · rcases hrest with ⟨hnil, hcs⟩ | ⟨rest, hcs, hsp⟩
          · exact Or.inl ⟨hnil, by rw [hcs]⟩
          · exact Or.inr ⟨rest, by rw [hcs]; rfl, hsp⟩

theorem splitByte_three (sep : Nat) (s a b c : GoString)
    (h : splitByte sep s = [a, b, c]) :
    s = a ++ sep :: (b ++ sep :: c) ∧ sep ∉ a ∧ sep ∉ b ∧ sep ∉ c := by
  obtain ⟨ha, h1⟩ := splitByte_head sep s a [b, c] h
  rcases h1 with ⟨hnil, _⟩ | ⟨r1, hs1, hr1⟩
  · cases hnil
  · obtain ⟨hb, h2⟩ := splitByte_head sep r1 b [c] hr1
    rcases h2 with ⟨hnil, _⟩ | ⟨r2, hs2, hr2⟩
    · cases hnil
    · obtain ⟨hc, h3⟩ := splitByte_head sep r2 c [] hr2
      rcases h3 with ⟨_, hs3⟩ | ⟨r3, _, hr3⟩
      · exact ⟨by rw [hs1, hs2, hs3], ha, hb, hc⟩
      · exact absurd hr3 (splitByte_ne_nil sep r3)

theorem lineOutcome_some (lineNum : Nat) (text : GoString) (b : Bank)
    (h : lineOutcome lineNum text = Except.ok (some b)) :
    trimSpace text ≠ [] ∧ specRecordOf (trimSpace text) b := by
  unfold lineOutcome at h
  by_cases h1 : trimSpace text = []
  · simp only [h1, if_true] at h
    cases h
  · refine ⟨h1, ?_⟩
    simp only [h1, if_false] at h
    by_cases h2 : (splitByte 44 (trimSpace text)).length ≠ 3
    · simp only [h2, if_true, ne_eq, not_false_eq_true] at h
      cases h
    · have hlen : (splitByte 44 (trimSpace text)).length = 3 := by
        by_contra hne; exact h2 hne
      obtain ⟨f0, f1, f2, hparts⟩ : ∃ f0 f1 f2, splitByte 44 (trimSpace text) = [f0, f1, f2] := by
        match hp : splitByte 44 (trimSpace text), hlen with
        | [f0, f1, f2], _ => exact ⟨f0, f1, f2, rfl⟩
      rw [hparts] at h
      simp only [List.length_cons, List.length_nil, ne_eq, not_true_eq_false, if_false,
        List.getD_cons_zero, List.getD_cons_succ, Nat.reduceAdd] at h
      obtain ⟨hline, hn0, hn1, hn2⟩ := splitByte_three 44 (trimSpace text) f0 f1 f2 hparts
      cases h3 : atoi f1 with
      | none => rw [h3] at h; cases h
      | some binFrom =>
        cases h4 : atoi f2 with
        | none => rw [h3, h4] at h; cases h
        | some binTo =>
          rw [h3, h4] at h
          by_cases h5 : binFrom > binTo
          · simp only [h5, if_true] at h
            cases h
          · simp only [h5, if_false, Except.ok.injEq, Option.some.injEq] at h
            subst h
            exact ⟨f1, f2, hline, hn0, hn1, hn2, h3, h4⟩

theorem lineOutcome_none (lineNum : Nat) (text : GoString)
    (h : lineOutcome lineNum text = Except.ok none) : trimSpace text = [] := by
  unfold lineOutcome at h
  by_cases h1 : trimSpace text = []
  · exact h1
  · simp only [h1, if_false] at h
    by_cases h2 : (splitByte 44 (trimSpace text)).length ≠ 3
    · simp only [h2, if_true, ne_eq, not_false_eq_true] at h
      cases h
    · simp only [h2, if_false, ne_eq, not_true_eq_false] at h
      cases h3 : atoi ((splitByte 44 (trimSpace text)).getD 1 []) with
      | none => rw [h3] at h; cases h
      | some binFrom =>
        cases h4 : atoi ((splitByte 44 (trimSpace text)).getD 2 []) with
        | none => rw [h3, h4] at h; cases h
        | some binTo =>
          rw [h3, h4] at h
          by_cases h5 : binFrom > binTo
          · simp only [h5, if_true] at h
            cases h
          · simp only [h5, if_false] at h
            cases h

/-! ### `strings.TrimSpace` -/

theorem stripFront_of_no_match (pats : List GoString) (fuel : Nat) (s : GoString)
    (h : ∀ p ∈ pats, p.isPrefixOf s = false) : stripFront pats fuel s = s := by
  cases fuel with
  | zero => rfl
  | succ fuel =>
    have hnone : pats.find? (fun p => p.isPrefixOf s) = none := by
      rw [List.find?_eq_none]
      intro p hp
      simp [h p hp]
    simp only [stripFront, hnone]

theorem stripFront_suffix (pats : List GoString) (fuel : Nat) :
    ∀ s : GoString, stripFront pats fuel s <:+ s := by
  induction fuel with
  | zero => intro s; exact List.suffix_refl s
  | succ fuel ih =>
    intro s
    cases hf : pats.find? (fun p => p.isPrefixOf s) with
    | none => simp only [stripFront, hf]; exact List.suffix_refl s
    | some p =>
      simp only [stripFront, hf]
      exact (ih _).trans (List.drop_suffix _ _)

theorem stripFront_stable (pats : List GoString) (hpats : ∀ p ∈ pats, p ≠ []) (fuel : Nat) :
    ∀ s : GoString, s.length ≤ fuel →
      ∀ p ∈ pats, p.isPrefixOf (stripFront pats fuel s) = false := by
  induction fuel with
  | zero =>
    intro s hs p hp
    have hnil : s = [] := List.length_eq_zero.mp (Nat.le_zero.mp hs)
    subst hnil
    cases hq : p with
    | nil => exact absurd hq (hpats p hp)
    | cons c cs => rfl
  | succ fuel ih =>
    intro s hs
    cases hf : pats.find? (fun p => p.isPrefixOf s) with
    | none =>
      simp only [stripFront, hf]
      intro p hp
      have := List.find?_eq_none.mp hf p hp
      exact Bool.eq_false_iff.mpr this
    | some q =>
      simp only [stripFront, hf]
      have hq : q ∈ pats := List.mem_of_find?_eq_some hf
      have hlen : 1 ≤ q.length := by
        cases hq' : q with
        | nil => exact absurd hq' (hpats q hq)
        | cons c cs => simp
      apply ih
      rw [List.length_drop]
      omega

theorem isPrefixOf_false_of_shorter (p x y : GoString) (hxy : y <+: x)
    (h : p.isPrefixOf x = false) : p.isPrefixOf y = false := by
  cases hy : p.isPrefixOf y with
  | false => rfl
  | true =>
    have h1 : p <+: y := List.isPrefixOf_iff_prefix.mp hy
    have h2 : p.isPrefixOf x = true := List.isPrefixOf_iff_prefix.mpr (h1.trans hxy)
    rw [h] at h2
    cases h2

theorem spaceRunes_ne_nil : ∀ p ∈ spaceRunes, p ≠ [] := by decide

theorem spaceRunes_reverse_ne_nil : ∀ p ∈ spaceRunes.map List.reverse, p ≠ [] := by decide

theorem trimSpace_idempotent (s : GoString) : trimSpace (trimSpace s) = trimSpace s := by
  have hz : ∀ p ∈ spaceRunes.map List.reverse,
      p.isPrefixOf (stripFront (spaceRunes.map List.reverse) (trimLeft s).length
        (trimLeft s).reverse) = false :=
    stripFront_stable _ spaceRunes_reverse_ne_nil _ _ (by simp)
  have hpre : trimRight (trimLeft s) <+: trimLeft s := by
    have := stripFront_suffix (spaceRunes.map List.reverse) (trimLeft s).length
      (trimLeft s).reverse
    have h2 := List.reverse_prefix.mpr this
    simpa [trimRight] using h2
  have hx : ∀ p ∈ spaceRunes, p.isPrefixOf (trimLeft s) = false :=
    stripFront_stable _ spaceRunes_ne_nil _ _ (Nat.le_refl _)
  have hleft : trimLeft (trimRight (trimLeft s)) = trimRight (trimLeft s) := by
    unfold trimLeft
    apply stripFront_of_no_match
    intro p hp
    exact isPrefixOf_false_of_shorter p _ _ hpre (hx p hp)
  unfold trimSpace
  rw [hleft]
  unfold trimRight
  rw [List.reverse_reverse, stripFront_of_no_match _ _ _ hz]

theorem lineOutcome_trimSpace (lineNum : Nat) (text : GoString) :
    lineOutcome lineNum (trimSpace text) = lineOutcome lineNum text := by
  unfold lineOutcome
  rw [trimSpace_idempotent]

theorem loadLoop_map_trimSpace (scanFailed : Bool) (lines : List GoString) :
    ∀ (lineNum : Nat) (banks : List Bank),
      loadLoop scanFailed (lines.map trimSpace) lineNum banks =
        loadLoop scanFailed lines lineNum banks := by
  induction lines with
  | nil => intro lineNum banks; rfl
  | cons text rest ih =>
    intro lineNum banks
    rw [List.map_cons, loadLoop_cons, loadLoop_cons, lineOutcome_trimSpace]
    cases lineOutcome (lineNum + 1) text with
    | error e => rfl
    | ok o =>
      cases o with
      | none => exact ih _ _
      | some b => exact ih _ _

theorem loadLoop_records (scanFailed : Bool) (lines : List GoString) :
    ∀ (lineNum : Nat) (banks out : List Bank),
      loadLoop scanFailed lines lineNum banks = (out, none) →
        ∃ recs, out = banks ++ recs ∧
          List.Forall₂ specRecordOf
            ((lines.map trimSpace).filter (fun l => decide (l ≠ []))) recs := by
  induction lines with
  | nil =>
    intro lineNum banks out h
    cases scanFailed
    · simp only [loadLoop, Bool.false_eq_true, if_false, Prod.mk.injEq, and_true] at h
      exact ⟨[], by simp [h], by simp⟩
    · simp [loadLoop] at h
  | cons text rest ih =>
    intro lineNum banks out h
    rw [loadLoop_cons] at h
    cases ho : lineOutcome (lineNum + 1) text with
    | error e => rw [ho] at h; simp at h
    | ok o =>
      cases o with
      | none =>
        rw [ho] at h
        obtain ⟨recs, hout, hrel⟩ := ih _ _ _ h
        have hb := lineOutcome_none _ _ ho
        refine ⟨recs, hout, ?_⟩
        simpa [List.filter_cons, hb] using hrel
      | some b =>
        rw [ho] at h
        obtain ⟨recs, hout, hrel⟩ := ih _ _ _ h
        obtain ⟨hne, hrec⟩ := lineOutcome_some _ _ _ ho
        refine ⟨b :: recs, by simp [hout], ?_⟩
        have : ((text :: rest).map trimSpace).filter (fun l => decide (l ≠ [])) =
            trimSpace text :: (rest.map trimSpace).filter (fun l => decide (l ≠ [])) := by
          simp [List.filter_cons, hne]
        rw [this]
        exact List.Forall₂.cons hrec hrel

/-- C6: when `loadBankData` succeeds, the returned table has exactly one record
per non-blank line, in file order: lines that are empty after trimming
contribute nothing, and the record for a trimmed line `name,low,high` has
`Name = name`, `BinFrom` the integer `low` and `BinTo` the integer `high`;
leading and trailing white space is ignored, the lines with it removed load to
the same table. -/
theorem loadBankData_records (lines : List GoString) (scanFailed : Bool) (banks : List Bank)
    (h : loadBankData lines scanFailed = (banks, none)) :
    List.Forall₂ specRecordOf
        ((lines.map trimSpace).filter (fun l => decide (l ≠ []))) banks ∧
      banks.length = ((lines.map trimSpace).filter (fun l => decide (l ≠ []))).length ∧
      loadBankData (lines.map trimSpace) scanFailed = (banks, none) := by
  obtain ⟨recs, hout, hrel⟩ := loadLoop_records scanFailed lines 0 [] banks h
  rw [List.nil_append] at hout
  subst hout
  refine ⟨hrel, hrel.length_eq.symm, ?_⟩
  rw [← h]
  exact loadLoop_map_trimSpace scanFailed lines 0 []

/-- Witness for C6: a file with a blank line, a white-space-only line and two
padded records. -/
theorem loadBankData_records_witness :
    loadBankData [str "  BankA,400000,400999", str "", str " \t ", str "BankB,5,7 \r"] false =
      ([⟨str "BankA", 400000, 400999⟩, ⟨str "BankB", 5, 7⟩], none) ∧
    List.Forall₂ specRecordOf
      (([str "  BankA,400000,400999", str "", str " \t ", str "BankB,5,7 \r"].map trimSpace).filter
        (fun l => decide (l ≠ [])))
      [⟨str "BankA", 400000, 400999⟩, ⟨str "BankB", 5, 7⟩] :=
  ⟨by decide,
   (loadBankData_records [str "  BankA,400000,400999", str "", str " \t ", str "BankB,5,7 \r"]
      false [⟨str "BankA", 400000, 400999⟩, ⟨str "BankB", 5, 7⟩] (by decide)).1⟩

/-! ### Writing a record and reading it back -/

theorem parseDigits_append_single (xs : GoString) (c : Nat) :
    ∀ acc : Nat, parseDigits (xs ++ [c]) acc =
      (parseDigits xs acc).bind
        (fun a => if c < 48 ∨ c > 57 then none else some (a * 10 + (c - 48))) := by
  induction xs with
  | nil =>
    intro acc
    by_cases h : c < 48 ∨ c > 57
    · simp [parseDigits, h]
    · simp [parseDigits, h]
  | cons x xs ih =>
    intro acc
    by_cases h : x < 48 ∨ x > 57
    · simp [parseDigits, h]
    · simp only [List.cons_append, parseDigits, Bool.or_eq_true, decide_eq_true_eq, h, if_false]
      exact ih _

theorem parseDigits_natDigitsRev (fuel : Nat) :
    ∀ n : Nat, n < fuel → parseDigits (natDigitsRev fuel n).reverse 0 = some n := by
  induction fuel with
  | zero => intro n h; omega
  | succ fuel ih =>
    intro n hn
    have hd : ¬ (48 + n % 10 < 48 ∨ 48 + n % 10 > 57) := by omega
    by_cases h10 : n < 10
    · simp only [natDigitsRev, h10, if_true, List.reverse_cons, List.reverse_nil,
        List.nil_append, parseDigits, Bool.or_eq_true, decide_eq_true_eq, hd, if_false]
      congr 1
      omega
    · simp only [natDigitsRev, h10, if_false, List.reverse_cons]
      rw [parseDigits_append_single, ih (n / 10) (by omega)]
      simp only [Option.some_bind, hd, if_false]
      congr 1
      omega

theorem natDigitsRev_digit (fuel : Nat) :
    ∀ n : Nat, ∀ c ∈ natDigitsRev fuel n, 48 ≤ c ∧ c ≤ 57 := by
  induction fuel with
  | zero => intro n c hc; cases hc
  | succ fuel ih =>
    intro n c hc
    by_cases h10 : n < 10
    · simp only [natDigitsRev, h10, if_true, List.mem_singleton] at hc
      omega
    · simp only [natDigitsRev, h10, if_false, List.mem_cons] at hc
      rcases hc with rfl | hc
      · omega
      · exact ih _ c hc

theorem formatNat_digit (n : Nat) : ∀ c ∈ formatNat n, 48 ≤ c ∧ c ≤ 57 := by
  intro c hc
  exact natDigitsRev_digit (n + 1) n c (List.mem_reverse.mp hc)

theorem formatNat_reverse (n : Nat) :
    ∃ t, (formatNat n).reverse = (48 + n % 10) :: t := by
  unfold formatNat
  rw [List.reverse_reverse]
  exact ⟨_, rfl⟩

theorem formatNat_cons (n : Nat) :
    ∃ d t, formatNat n = d :: t ∧ 48 ≤ d ∧ d ≤ 57 := by
  cases h : formatNat n with
  | nil =>
    obtain ⟨t, ht⟩ := formatNat_reverse n
    rw [h] at ht
    cases ht
  | cons d t =>
    exact ⟨d, t, rfl, formatNat_digit n d (by rw [h]; exact List.mem_cons_self _ _)⟩

theorem parseDigits_formatNat (n : Nat) : parseDigits (formatNat n) 0 = some n :=
  parseDigits_natDigitsRev (n + 1) n (Nat.lt_succ_self n)

theorem atoi_formatInt (v : Int) (hmin : -9223372036854775808 ≤ v)
    (hmax : v ≤ 9223372036854775807) : atoi (formatInt v) = some v := by
  by_cases hneg : v < 0
  · obtain ⟨d, t, hdt, _, _⟩ := formatNat_cons v.natAbs
    have hp := parseDigits_formatNat v.natAbs
    have hne : formatNat v.natAbs ≠ [] := by rw [hdt]; simp
    have hr : v.natAbs ≤ 9223372036854775808 := by omega
    simp only [formatInt, hneg, if_true, atoi, hne, if_false, hp, hr]
    congr 1
    omega
  · obtain ⟨d, t, hdt, hd1, hd2⟩ := formatNat_cons v.toNat
    have hp := parseDigits_formatNat v.toNat
    have h45 : d ≠ 45 := by omega
    have h43 : d ≠ 43 := by omega
    have hr : v.toNat ≤ 9223372036854775807 := by omega
    simp only [formatInt, hneg, if_false]
    rw [hdt] at hp ⊢
    simp only [atoi, h45, h43, if_false, hp, hr, if_true]
    congr 1
    omega

theorem formatInt_no_comma (v : Int) : 44 ∉ formatInt v := by
  intro hm
  by_cases hneg : v < 0
  · simp only [formatInt, hneg, if_true, List.mem_cons] at hm
    rcases hm with h | h
    · omega
    · have := formatNat_digit _ _ h
      omega
  · simp only [formatInt, hneg, if_false] at hm
    have := formatNat_digit _ _ hm
    omega

theorem formatInt_reverse (v : Int) :
    ∃ d t, (formatInt v).reverse = d :: t ∧ 48 ≤ d ∧ d ≤ 57 := by
  by_cases hneg : v < 0
  · obtain ⟨t, ht⟩ := formatNat_reverse v.natAbs
    refine ⟨48 + v.natAbs % 10, t ++ [45], ?_, by omega, by omega⟩
    simp only [formatInt, hneg, if_true, List.reverse_cons, ht, List.cons_append]
  · obtain ⟨t, ht⟩ := formatNat_reverse v.toNat
    refine ⟨48 + v.toNat % 10, t, ?_, by omega, by omega⟩
    simp only [formatInt, hneg, if_false, ht]

theorem splitByte_no_sep (sep : Nat) (a : GoString) (h : sep ∉ a) :
    splitByte sep a = [a] := by
  induction a with
  | nil => rfl
  | cons c cs ih =>
    have hc : c ≠ sep := fun e => h (by rw [e]; exact List.mem_cons_self _ _)
    have hcs : sep ∉ cs := fun hm => h (List.mem_cons_of_mem _ hm)
    exact splitByte_cons_not_sep sep c cs cs [] hc (ih hcs)

theorem splitByte_append_sep (sep : Nat) (a rest : GoString) (h : sep ∉ a) :
    splitByte sep (a ++ sep :: rest) = a :: splitByte sep rest := by
  induction a with
  | nil => simp [splitByte]
  | cons c cs ih =>
    have hc : c ≠ sep := fun e => h (by rw [e]; exact List.mem_cons_self _ _)
    have hcs : sep ∉ cs := fun hm => h (List.mem_cons_of_mem _ hm)
    rw [List.cons_append]
    exact splitByte_cons_not_sep sep c _ cs _ hc (ih hcs)

theorem isPrefixOf_append_cons (p : GoString) :
    ∀ (a : GoString) (c : Nat) (r : GoString), p.isPrefixOf (a ++ c :: r) = true →
      p.isPrefixOf a = true ∨ c ∈ p := by
  induction p with
  | nil => intro a c r _; exact Or.inl (by simp [List.isPrefixOf])
  | cons q qs ih =>
    intro a c r h
    cases a with
    | nil =>
      simp only [List.nil_append, List.isPrefixOf, Bool.and_eq_true, beq_iff_eq] at h
      exact Or.inr (by rw [h.1]; exact List.mem_cons_self _ _)
    | cons x xs =>
      simp only [List.cons_append, List.isPrefixOf, Bool.and_eq_true, beq_iff_eq] at h
      rcases ih xs c r h.2 with h1 | h1
      · exact Or.inl (by simp [List.isPrefixOf, h.1, h1])
      · exact Or.inr (List.mem_cons_of_mem _ h1)

theorem spaceRunes_no_comma : ∀ p ∈ spaceRunes, 44 ∉ p := by decide

theorem spaceRunes_reverse_head :
    ∀ p ∈ spaceRunes.map List.reverse,
      (match p with
        | [] => false
        | q :: _ => decide (q < 48 ∨ 57 < q)) = true := by decide

theorem trimLeft_of_not_startsWithSpace (name rest : GoString)
    (h : startsWithSpace name = false) :
    trimLeft (name ++ 44 :: rest) = name ++ 44 :: rest := by
  unfold trimLeft
  apply stripFront_of_no_match
  intro p hp
  cases hpre : p.isPrefixOf (name ++ 44 :: rest) with
  | false => rfl
  | true =>
    rcases isPrefixOf_append_cons p name 44 rest hpre with h1 | h1
    · have : startsWithSpace name = true := by
        unfold startsWithSpace
        rw [List.any_eq_true]
        exact ⟨p, hp, h1⟩
      rw [h] at this
      cases this
    · exact absurd h1 (spaceRunes_no_comma p hp)

theorem trimRight_of_digit_last (s t : GoString) (d : Nat) (hs : s.reverse = d :: t)
    (h1 : 48 ≤ d) (h2 : d ≤ 57) : trimRight s = s := by
  unfold trimRight
  rw [stripFront_of_no_match, List.reverse_reverse]
  intro p hp
  have hh := spaceRunes_reverse_head p hp
  rw [hs]
  cases p with
  | nil => simp at hh
  | cons q qs =>
    simp only [decide_eq_true_eq] at hh
    have hq : q ≠ d := by omega
    simp [List.isPrefixOf, hq]

theorem trimSpace_specBankLine (b : Bank) (hlead : startsWithSpace b.Name = false) :
    trimSpace (specBankLine b) = specBankLine b := by
  unfold trimSpace specBankLine
  rw [trimLeft_of_not_startsWithSpace _ _ hlead]
  obtain ⟨d, t, hr, h1, h2⟩ := formatInt_reverse b.BinTo
  apply trimRight_of_digit_last _ (t ++ (b.Name ++ 44 :: (formatInt b.BinFrom ++ [44])).reverse)
    d _ h1 h2
  have e : b.Name ++ 44 :: (formatInt b.BinFrom ++ 44 :: formatInt b.BinTo) =
      (b.Name ++ 44 :: (formatInt b.BinFrom ++ [44])) ++ formatInt b.BinTo := by simp
  rw [e, List.reverse_append, hr, List.cons_append]

theorem splitByte_specBankLine (b : Bank) (hcomma : 44 ∉ b.Name) :
    splitByte 44 (specBankLine b) = [b.Name, formatInt b.BinFrom, formatInt b.BinTo] := by
  unfold specBankLine
  rw [splitByte_append_sep 44 _ _ hcomma,
    splitByte_append_sep 44 _ _ (formatInt_no_comma b.BinFrom),
    splitByte_no_sep 44 _ (formatInt_no_comma b.BinTo)]

theorem lineOutcome_specBankLine (lineNum : Nat) (b : Bank) (hcomma : 44 ∉ b.Name)
    (hlead : startsWithSpace b.Name = false) (hle : b.BinFrom ≤ b.BinTo)
    (hmin : -9223372036854775808 ≤ b.BinFrom) (hmax : b.BinTo ≤ 9223372036854775807) :
    lineOutcome lineNum (specBankLine b) = Except.ok (some b) := by
  have hne : specBankLine b ≠ [] := by
    unfold specBankLine
    simp
  have h1 := atoi_formatInt b.BinFrom hmin (by omega)
  have h2 := atoi_formatInt b.BinTo (by omega) hmax
  have h5 : ¬ b.BinFrom > b.BinTo := by omega
  unfold lineOutcome
  rw [trimSpace_specBankLine b hlead, splitByte_specBankLine b hcomma]
  simp only [hne, if_false, List.length_cons, List.length_nil, ne_eq, not_true_eq_false,
    List.getD_cons_zero, List.getD_cons_succ, Nat.reduceAdd, h1, h2, h5]

theorem loadBankData_specBankLine (b : Bank) (hcomma : 44 ∉ b.Name)
    (hlead : startsWithSpace b.Name = false) (hle : b.BinFrom ≤ b.BinTo)
    (hmin : -9223372036854775808 ≤ b.BinFrom) (hmax : b.BinTo ≤ 9223372036854775807) :
    loadBankData [specBankLine b] false = ([b], none) := by
  unfold loadBankData
  rw [loadLoop_cons, lineOutcome_specBankLine _ b hcomma hlead hle hmin hmax]
  simp [loadLoop]

theorem formatInt_bytes (v : Int) : ∀ c ∈ formatInt v, c = 45 ∨ (48 ≤ c ∧ c ≤ 57) := by
  intro c hc
  by_cases hneg : v < 0
  · simp only [formatInt, hneg, if_true, List.mem_cons] at hc
    rcases hc with h | h
    · exact Or.inl h
    · exact Or.inr (formatNat_digit _ _ h)
  · simp only [formatInt, hneg, if_false] at hc
    exact Or.inr (formatNat_digit _ _ hc)

theorem specBankLine_no_lf (b : Bank) (h : 10 ∉ b.Name) : 10 ∉ specBankLine b := by
  intro hm
  unfold specBankLine at hm
  simp only [List.mem_append, List.mem_cons] at hm
  rcases hm with h1 | h2 | h3 | h4 | h5
  · exact h h1
  · omega
  · have := formatInt_bytes _ _ h3
    omega
  · omega
  · have := formatInt_bytes _ _ h5
    omega

theorem specBankLine_reverse (b : Bank) :
    ∃ d t, (specBankLine b).reverse = d :: t ∧ 48 ≤ d ∧ d ≤ 57 := by
  obtain ⟨d, t, hr, h1, h2⟩ := formatInt_reverse b.BinTo
  refine ⟨d, t ++ (b.Name ++ 44 :: (formatInt b.BinFrom ++ [44])).reverse, ?_, h1, h2⟩
  have e : specBankLine b =
      (b.Name ++ 44 :: (formatInt b.BinFrom ++ [44])) ++ formatInt b.BinTo := by
    simp [specBankLine]
  rw [e, List.reverse_append, hr, List.cons_append]

theorem specBankLine_ne_nil (b : Bank) : specBankLine b ≠ [] := by
  unfold specBankLine
  simp

theorem dropCR_specBankLine (b : Bank) : dropCR (specBankLine b) = specBankLine b := by
  obtain ⟨d, t, hr, h1, h2⟩ := specBankLine_reverse b
  unfold dropCR
  split
  · rename_i rest heq
    rw [hr] at heq
    have hd : d = 13 := (List.cons.inj heq).1
    omega
  · rfl

theorem rawLines_with_lf (line : GoString) (h : 10 ∉ line) :
    rawLines (line ++ [10]) = [line] := by
  unfold rawLines
  rw [splitByte_append_sep 10 line [] h]
  rfl

theorem rawLines_without_lf (line : GoString) (h : 10 ∉ line) (hne : line ≠ []) :
    rawLines line = [line] := by
  unfold rawLines
  rw [splitByte_no_sep 10 line h]
  cases line with
  | nil => exact absurd rfl hne
  | cons c cs => rfl

theorem scanTokens_single (line : GoString) (h : line.length < maxScanTokenSize) :
    scanTokens [line] = ([dropCR line], false) := by
  have hn : ¬ line.length ≥ maxScanTokenSize := by omega
  simp only [scanTokens, hn, if_false]

theorem scanTokens_too_long (line : GoString) (rest : List GoString)
    (h : maxScanTokenSize ≤ line.length) : scanTokens (line :: rest) = ([], true) := by
  have hn : line.length ≥ maxScanTokenSize := h
  simp only [scanTokens, hn, if_true]

theorem loadBankFile_too_long (line : GoString) (h10 : 10 ∉ line)
    (hlen : maxScanTokenSize ≤ line.length) :
    loadBankFile (line ++ [10]) = ([], some LoadError.readFailed) := by
  unfold loadBankFile scanLines
  rw [rawLines_with_lf line h10, scanTokens_too_long line [] hlen]
  rfl

theorem replicate_not_mem (n a c : Nat) (h : c ≠ a) : c ∉ List.replicate n a := by
  intro hm
  exact h (List.eq_of_mem_replicate hm)

theorem specBankLine_length_ge (b : Bank) : b.Name.length ≤ (specBankLine b).length := by
  unfold specBankLine
  rw [List.length_append]
  exact Nat.le_add_right _ _

theorem startsWithSpace_cons (c : Nat) (t : GoString) (h1 : 32 < c) (h2 : c < 194) :
    startsWithSpace (c :: t) = false := by
  have h9 : (9 == c) = false := by simp; omega
  have h10 : (10 == c) = false := by simp; omega
  have h11 : (11 == c) = false := by simp; omega
  have h12 : (12 == c) = false := by simp; omega
  have h13 : (13 == c) = false := by simp; omega
  have h32 : (32 == c) = false := by simp; omega
  have h194 : (194 == c) = false := by simp; omega
  have h225 : (225 == c) = false := by simp; omega
  have h226 : (226 == c) = false := by simp; omega
  have h227 : (227 == c) = false := by simp; omega
  simp only [startsWithSpace, spaceRunes, List.any_cons, List.any_nil, List.isPrefixOf,
    h9, h10, h11, h12, h13, h32, h194, h225, h226, h227, Bool.false_and, Bool.or_false,
    Bool.and_true, Bool.or_self]

/-- C7, as stated, fails for five kinds of record: a comma in the name splits
the line into four fields, a low bound above the high bound is rejected by the
loader, white space at the start of the name is trimmed away, a line feed in
the name makes two lines of the record, and a line of 64 KiB or more stops the
scanner with an error. -/
theorem roundtrip_fails :
    loadBankFile (specBankLine ⟨str "A,B", 1, 2⟩ ++ [10]) ≠ ([⟨str "A,B", 1, 2⟩], none) ∧
    loadBankFile (specBankLine ⟨str "A", 5, 1⟩ ++ [10]) ≠ ([⟨str "A", 5, 1⟩], none) ∧
    loadBankFile (specBankLine ⟨str " A", 1, 2⟩ ++ [10]) ≠ ([⟨str " A", 1, 2⟩], none) ∧
    loadBankFile (specBankLine ⟨str "A\nB", 1, 2⟩ ++ [10]) =
      ([], some (LoadError.badFormat 1 (str "A"))) ∧
    loadBankFile (specBankLine ⟨List.replicate 65536 65, 1, 2⟩ ++ [10]) =
      ([], some LoadError.readFailed) := by
  refine ⟨by decide, by decide, by decide, by decide, ?_⟩
  apply loadBankFile_too_long
  · exact specBankLine_no_lf _ (replicate_not_mem 65536 65 10 (by omega))
  · have h := specBankLine_length_ge ⟨List.replicate 65536 65, 1, 2⟩
    rw [List.length_replicate] at h
    exact h

/-- C7, amended: for any `Bank` record whose name holds no comma and no line
feed and does not begin with white space, whose bounds are 64-bit integers
with `BinFrom <= BinTo`, and whose line is shorter than 64 KiB, writing it as
the single line `name,low,high` (bounds in base 10), ended by a line feed or
not, and loading that text succeeds and yields the one-record table holding the
original record; so does the line parser on that line alone. -/
theorem roundtrip_specBankLine (b : Bank) (hcomma : 44 ∉ b.Name) (hlf : 10 ∉ b.Name)
    (hlead : startsWithSpace b.Name = false) (hle : b.BinFrom ≤ b.BinTo)
    (hmin : -9223372036854775808 ≤ b.BinFrom) (hmax : b.BinTo ≤ 9223372036854775807)
    (hlen : (specBankLine b).length < maxScanTokenSize) :
    loadBankFile (specBankLine b ++ [10]) = ([b], none) ∧
    loadBankFile (specBankLine b) = ([b], none) ∧
    loadBankData [specBankLine b] false = ([b], none) := by
  have hline := loadBankData_specBankLine b hcomma hlead hle hmin hmax
  have hno := specBankLine_no_lf b hlf
  have hscan : scanTokens [specBankLine b] = ([specBankLine b], false) := by
    rw [scanTokens_single _ hlen, dropCR_specBankLine]
  refine ⟨?_, ?_, hline⟩
  · unfold loadBankFile scanLines
    rw [rawLines_with_lf _ hno, hscan]
    exact hline
  · unfold loadBankFile scanLines
    rw [rawLines_without_lf _ hno (specBankLine_ne_nil b), hscan]
    exact hline

/-- Witness for C7 amended: a record with a space inside and after its name and
a negative low bound. -/
theorem roundtrip_specBankLine_witness :
    specBankLine ⟨str "Bank A ", -7, 400999⟩ ++ [10] = str "Bank A ,-7,400999\n" ∧
    loadBankFile (specBankLine ⟨str "Bank A ", -7, 400999⟩ ++ [10]) =
      ([⟨str "Bank A ", -7, 400999⟩], none) :=
  ⟨by decide,
   (roundtrip_specBankLine ⟨str "Bank A ", -7, 400999⟩ (by decide) (by decide) (by decide)
     (by decide) (by decide) (by decide) (by decide)).1⟩

/-! ### The sentinel -1 on a loaded table -/

theorem atoi_nonneg (s : GoString) (v : Int) (h : atoi s = some v)
    (hs : s.head? ≠ some 45) : 0 ≤ v := by
  cases s with
  | nil => simp [atoi] at h
  | cons c rest =>
    have hc : c ≠ 45 := by
      intro e
      apply hs
      rw [e]
      rfl
    by_cases h43 : c = 43
    · by_cases hr : rest = []
      · simp [atoi, hc, h43, hr] at h
      · cases hp : parseDigits rest 0 with
        | none => simp [atoi, h43, hr, hp] at h
        | some n =>
          by_cases hn : n ≤ 9223372036854775807
          · simp only [atoi, h43, hr, hp, hn, if_true, if_false, Option.some.injEq] at h
            simp at h
            omega
          · simp [atoi, h43, hr, hp, hn] at h
    · cases hp : parseDigits (c :: rest) 0 with
      | none => simp [atoi, hc, h43, hp] at h
      | some n =>
        by_cases hn : n ≤ 9223372036854775807
        · simp only [atoi, hc, h43, hp, hn, if_true, if_false, Option.some.injEq] at h
          omega
        · simp [atoi, hc, h43, hp, hn] at h

theorem specRecordOf_of_mem (lines : List GoString) (banks : List Bank)
    (h : List.Forall₂ specRecordOf lines banks) :
    ∀ b ∈ banks, ∃ l ∈ lines, specRecordOf l b := by
  induction h with
  | nil => intro b hb; cases hb
  | cons hab _ ih =>
    intro b hb
    rcases List.mem_cons.mp hb with rfl | hb
    · exact ⟨_, List.mem_cons_self _ _, hab⟩
    · obtain ⟨l, hl, hr⟩ := ih b hb
      exact ⟨l, List.mem_cons_of_mem _ hl, hr⟩

theorem specRecordOf_low_field (line : GoString) (b : Bank) (h : specRecordOf line b) :
    atoi ((splitByte 44 line).getD 1 []) = some b.BinFrom := by
  obtain ⟨low, high, hline, hn0, hn1, hn2, hlow, _⟩ := h
  rw [hline, splitByte_append_sep 44 _ _ hn0, splitByte_append_sep 44 _ _ hn1,
    splitByte_no_sep 44 _ hn2]
  exact hlow

/-- C9, amended: for every table that `loadBankData` returns from lines on none
of which the low-bound field begins with a minus sign, every lower bound is
non-negative and `identifyBank (-1) table` is the unknown-bank result. -/
theorem identifyBank_sentinel_unknown (lines : List GoString) (scanFailed : Bool)
    (banks : List Bank) (hload : loadBankData lines scanFailed = (banks, none))
    (hsign : ∀ l ∈ lines, ((splitByte 44 (trimSpace l)).getD 1 []).head? ≠ some 45) :
    (∀ b ∈ banks, 0 ≤ b.BinFrom) ∧ identifyBank (-1) banks = unknownBank := by
  obtain ⟨recs, hout, hrel⟩ := loadLoop_records scanFailed lines 0 [] banks hload
  rw [List.nil_append] at hout
  subst hout
  have hnonneg : ∀ b ∈ banks, 0 ≤ b.BinFrom := by
    intro b hb
    obtain ⟨t, ht, hrec⟩ := specRecordOf_of_mem _ _ hrel b hb
    have ht' := (List.mem_filter.mp ht).1
    obtain ⟨l, hl, rfl⟩ := List.mem_map.mp ht'
    exact atoi_nonneg _ _ (specRecordOf_low_field _ b hrec) (hsign l hl)
  refine ⟨hnonneg, identifyBank_no_match (-1) banks ?_⟩
  intro b hb hr
  have := hnonneg b hb
  omega

/-- Witness for C9 amended: a loaded two-line table with unsigned bounds. -/
theorem identifyBank_sentinel_unknown_witness :
    loadBankData [str "BankA,400000,400999", str "BankB,0,5"] false =
      ([⟨str "BankA", 400000, 400999⟩, ⟨str "BankB", 0, 5⟩], none) ∧
    identifyBank (-1) [⟨str "BankA", 400000, 400999⟩, ⟨str "BankB", 0, 5⟩] = unknownBank :=
  ⟨by decide,
   (identifyBank_sentinel_unknown [str "BankA,400000,400999", str "BankB,0,5"] false
      [⟨str "BankA", 400000, 400999⟩, ⟨str "BankB", 0, 5⟩] (by decide) (by decide)).2⟩

/-! ### Known vectors -/

/-- C11: `validateLuhn` gives the documented results on the known vectors:
"4539148803436467" is accepted, "4539148803436468" is rejected, and the
classic vector "79927398713" is accepted although it has 11 characters, fewer
than 13, and `validateInput` rejects it. -/
theorem validateLuhn_known_vectors :
    validateLuhn (str "4539148803436467") = true ∧
    validateLuhn (str "4539148803436468") = false ∧
    validateLuhn (str "79927398713") = true ∧
    (str "79927398713").length = 11 ∧
    validateInput (str "79927398713") = false := by
  decide

/-! ### The invariant of a loaded table -/

theorem lineOutcome_ordered (lineNum : Nat) (text : GoString) (b : Bank)
    (h : lineOutcome lineNum text = Except.ok (some b)) : b.BinFrom ≤ b.BinTo := by
  unfold lineOutcome at h
  by_cases h1 : trimSpace text = []
  · simp only [h1, if_true] at h
    cases h
  · simp only [h1, if_false] at h
    by_cases h2 : (splitByte 44 (trimSpace text)).length ≠ 3
    · simp only [h2, if_true, ne_eq, not_false_eq_true] at h
      cases h
    · simp only [h2, if_false, ne_eq, not_true_eq_false] at h
      cases h3 : atoi ((splitByte 44 (trimSpace text)).getD 1 []) with
      | none => rw [h3] at h; cases h
      | some binFrom =>
        cases h4 : atoi ((splitByte 44 (trimSpace text)).getD 2 []) with
        | none => rw [h3, h4] at h; cases h
        | some binTo =>
          rw [h3, h4] at h
          by_cases h5 : binFrom > binTo
          · simp only [h5, if_true] at h
            cases h
          · simp only [h5, if_false, Except.ok.injEq, Option.some.injEq] at h
            subst h
            exact Int.not_lt.mp h5

theorem loadLoop_ordered (scanFailed : Bool) (lines : List GoString) :
    ∀ (lineNum : Nat) (banks out : List Bank),
      loadLoop scanFailed lines lineNum banks = (out, none) →
        (∀ b ∈ banks, b.BinFrom ≤ b.BinTo) → ∀ b ∈ out, b.BinFrom ≤ b.BinTo := by
  induction lines with
  | nil =>
    intro lineNum banks out h hb
    cases scanFailed
    · simp only [loadLoop, Bool.false_eq_true, if_false, Prod.mk.injEq, and_true] at h
      rw [← h]
      exact hb
    · simp [loadLoop] at h
  | cons text rest ih =>
    intro lineNum banks out h hb
    rw [loadLoop_cons] at h
    cases ho : lineOutcome (lineNum + 1) text with
    | error e => rw [ho] at h; simp at h
    | ok o =>
      cases o with
      | none =>
        rw [ho] at h
        exact ih _ _ _ h hb
      | some r =>
        rw [ho] at h
        apply ih _ _ _ h
        intro b hmem
        rcases List.mem_append.mp hmem with hm | hm
        · exact hb b hm
        · rw [List.mem_singleton.mp hm]
          exact lineOutcome_ordered _ _ _ ho

/-- C13: every record of every table that `loadBankData` returns successfully
satisfies `BinFrom <= BinTo`. -/
theorem loadBankData_ordered (lines : List GoString) (scanFailed : Bool) (banks : List Bank)
    (h : loadBankData lines scanFailed = (banks, none)) :
    ∀ b ∈ banks, b.BinFrom ≤ b.BinTo :=
  loadLoop_ordered scanFailed lines 0 [] banks h (fun b hb => by cases hb)

/-- Witness for C13: a loaded three-record table, one range a single point and
one negative; the theorem gives the order of the bounds of the third record. -/
theorem loadBankData_ordered_witness :
    loadBankData [str "A,400000,400999", str "", str "B,7,7", str " C,-9,-2"] false =
      ([⟨str "A", 400000, 400999⟩, ⟨str "B", 7, 7⟩, ⟨str "C", -9, -2⟩], none) ∧
    (⟨str "C", -9, -2⟩ : Bank).BinFrom ≤ (⟨str "C", -9, -2⟩ : Bank).BinTo :=
  ⟨by decide,
   loadBankData_ordered [str "A,400000,400999", str "", str "B,7,7", str " C,-9,-2"] false
     [⟨str "A", 400000, 400999⟩, ⟨str "B", 7, 7⟩, ⟨str "C", -9, -2⟩] (by decide)
     ⟨str "C", -9, -2⟩ (by decide)⟩

/-! ### `extractBIN` and its sentinel -/

theorem extractBIN_of_digits (a b c d e f : Nat) (rest : GoString)
    (ha : isDigitByte a = true) (hb : isDigitByte b = true) (hc : isDigitByte c = true)
    (hd : isDigitByte d = true) (he : isDigitByte e = true) (hf : isDigitByte f = true) :
    atoi ((a :: b :: c :: d :: e :: f :: rest).take 6) =
        some (((a - 48) * 100000 + (b - 48) * 10000 + (c - 48) * 1000 + (d - 48) * 100 +
          (e - 48) * 10 + (f - 48) : Nat) : Int) ∧
      extractBIN (a :: b :: c :: d :: e :: f :: rest) =
        (((a - 48) * 100000 + (b - 48) * 10000 + (c - 48) * 1000 + (d - 48) * 100 +
          (e - 48) * 10 + (f - 48) : Nat) : Int) := by
  have hl : ¬ (a :: b :: c :: d :: e :: f :: rest).length < 6 := by
    simp only [List.length_cons]; omega
  have ht : (a :: b :: c :: d :: e :: f :: rest).take 6 = [a, b, c, d, e, f] := by
    simp [List.take]
  have hat := atoi_six_digits a b c d e f ha hb hc hd he hf
  constructor
  · rw [ht]; exact hat
  · simp only [extractBIN, hl, if_false, ht, hat]

/-- C16: for every string accepted by `validateInput`, `extractBIN` takes
neither of its error branches: the string has at least 6 bytes, the leading six
parse, and the result is the numeric value of the first six digits, between 0
and 999999, so never the sentinel -1. -/
theorem extractBIN_of_validateInput (s : GoString) (h : validateInput s = true) :
    ¬ s.length < 6 ∧ atoi (s.take 6) = some (extractBIN s) ∧
    extractBIN s ≠ -1 ∧ 0 ≤ extractBIN s ∧ extractBIN s ≤ 999999 ∧
    extractBIN s =
      (((s.getD 0 0 - 48) * 100000 + (s.getD 1 0 - 48) * 10000 + (s.getD 2 0 - 48) * 1000 +
        (s.getD 3 0 - 48) * 100 + (s.getD 4 0 - 48) * 10 + (s.getD 5 0 - 48) : Nat) : Int) := by
  obtain ⟨⟨hlen, _⟩, hdig⟩ := (validateInput_true_iff s).mp h
  match s, hlen, hdig with
  | a :: b :: c :: d :: e :: f :: rest, hlen, hdig =>
    have ha := hdig a (by simp)
    have hb := hdig b (by simp)
    have hc := hdig c (by simp)
    have hd := hdig d (by simp)
    have he := hdig e (by simp)
    have hf := hdig f (by simp)
    obtain ⟨hat, hex⟩ := extractBIN_of_digits a b c d e f rest ha hb hc hd he hf
    have ha' := (isDigitByte_iff a).mp ha
    have hb' := (isDigitByte_iff b).mp hb
    have hc' := (isDigitByte_iff c).mp hc
    have hd' := (isDigitByte_iff d).mp hd
    have he' := (isDigitByte_iff e).mp he
    have hf' := (isDigitByte_iff f).mp hf
    simp only [List.getD_cons_zero, List.getD_cons_succ]
    rw [hex]
    refine ⟨by simp only [List.length_cons]; omega, hat, by omega, by omega, by omega, rfl⟩

/-- Witness for C16: a 16-digit card number beginning with zeros. -/
theorem extractBIN_of_validateInput_witness :
    validateInput (str "0040001111111111") = true ∧
      extractBIN (str "0040001111111111") ≠ -1 ∧ extractBIN (str "0040001111111111") = 4000 :=
  ⟨by decide, (extractBIN_of_validateInput (str "0040001111111111") (by decide)).2.2.1,
   by decide⟩

theorem parseDigits_cons_some (ch : Nat) (rest : GoString) (acc n : Nat)
    (h : parseDigits (ch :: rest) acc = some n) :
    (48 ≤ ch ∧ ch ≤ 57) ∧ parseDigits rest (acc * 10 + (ch - 48)) = some n := by
  by_cases hc : ch < 48 ∨ ch > 57
  · simp [parseDigits, hc] at h
  · simp only [parseDigits, Bool.or_eq_true, decide_eq_true_eq, hc, if_false] at h
    exact ⟨by omega, h⟩

theorem parseDigits_five_eq_one (c1 c2 c3 c4 c5 : Nat)
    (h : parseDigits [c1, c2, c3, c4, c5] 0 = some 1) :
    c1 = 48 ∧ c2 = 48 ∧ c3 = 48 ∧ c4 = 48 ∧ c5 = 49 := by
  obtain ⟨h1, h⟩ := parseDigits_cons_some _ _ _ _ h
  obtain ⟨h2, h⟩ := parseDigits_cons_some _ _ _ _ h
  obtain ⟨h3, h⟩ := parseDigits_cons_some _ _ _ _ h
  obtain ⟨h4, h⟩ := parseDigits_cons_some _ _ _ _ h
  obtain ⟨h5, h⟩ := parseDigits_cons_some _ _ _ _ h
  simp only [parseDigits, Option.some.injEq] at h
  omega

theorem atoi_six_eq_neg_one (c0 c1 c2 c3 c4 c5 : Nat)
    (h : atoi [c0, c1, c2, c3, c4, c5] = some (-1)) :
    [c0, c1, c2, c3, c4, c5] = [45, 48, 48, 48, 48, 49] := by
  by_cases h45 : c0 = 45
  · cases hp : parseDigits [c1, c2, c3, c4, c5] 0 with
    | none => simp [atoi, h45, hp] at h
    | some n =>
      by_cases hn : n ≤ 9223372036854775808
      · simp only [atoi, h45, if_true, hp, hn, Option.some.injEq] at h
        simp at h
        have h1 : n = 1 := by omega
        rw [h1] at hp
        obtain ⟨e1, e2, e3, e4, e5⟩ := parseDigits_five_eq_one _ _ _ _ _ hp
        rw [h45, e1, e2, e3, e4, e5]
      · simp [atoi, h45, hp, hn] at h
  · by_cases h43 : c0 = 43
    · cases hp : parseDigits [c1, c2, c3, c4, c5] 0 with
      | none => simp [atoi, h43, hp] at h
      | some n =>
        by_cases hn : n ≤ 9223372036854775807
        · simp only [atoi, h43, if_true, hp, hn, Option.some.injEq] at h
          simp at h
        · simp [atoi, h43, hp, hn] at h
    · cases hp : parseDigits [c0, c1, c2, c3, c4, c5] 0 with
      | none => simp [atoi, h45, h43, hp] at h
      | some n =>
        by_cases hn : n ≤ 9223372036854775807
        · simp only [atoi, h45, h43, if_false, hp, hn, if_true, Option.some.injEq] at h
          omega
        · simp [atoi, h45, h43, hp, hn] at h

/-- C12, as stated, fails: the leading six bytes "-00001" parse, `strconv.Atoi`
accepting a sign, and their value is -1, so `extractBIN` returns -1 on a string
of 13 bytes whose leading six parse. -/
theorem extractBIN_sentinel_collision :
    extractBIN (str "-000011234567") = -1 ∧ ¬ (str "-000011234567").length < 6 ∧
      atoi ((str "-000011234567").take 6) = some (-1) := by
  decide

/-- C12, amended: `extractBIN s` is the sentinel -1 if `s` has fewer than 6
bytes or its leading 6 bytes do not parse as a base-10 integer, and otherwise
only when the leading 6 bytes are "-00001", which parse to -1. -/
theorem extractBIN_sentinel_iff (s : GoString) :
    extractBIN s = -1 ↔
      s.length < 6 ∨ atoi (s.take 6) = none ∨ s.take 6 = str "-00001" := by
  have e : str "-00001" = [45, 48, 48, 48, 48, 49] := by decide
  have hval : atoi [45, 48, 48, 48, 48, 49] = some (-1) := by decide
  rw [e]
  by_cases hlen : s.length < 6
  · simp [extractBIN, hlen]
  · have hlen6 : 6 ≤ s.length := by omega
    match s, hlen6, hlen with
    | c0 :: c1 :: c2 :: c3 :: c4 :: c5 :: rest, _, hlen =>
      have ht : (c0 :: c1 :: c2 :: c3 :: c4 :: c5 :: rest).take 6 =
          [c0, c1, c2, c3, c4, c5] := by simp [List.take]
      rw [ht]
      constructor
      · intro hv
        cases hat : atoi [c0, c1, c2, c3, c4, c5] with
        | none => exact Or.inr (Or.inl rfl)
        | some v =>
          simp only [extractBIN, hlen, if_false, ht, hat] at hv
          rw [hv] at hat
          exact Or.inr (Or.inr (atoi_six_eq_neg_one _ _ _ _ _ _ hat))
      · rintro (h1 | h2 | h3)
        · exact absurd h1 hlen
        · simp only [extractBIN, hlen, if_false, ht, h2]
        · simp only [extractBIN, hlen, if_false, ht, h3, hval]

/-- Witness for C12 amended: a five-byte string, a string whose leading six
bytes hold a letter, and the colliding string all give -1; a card number does
not. -/
theorem extractBIN_sentinel_iff_witness :
    extractBIN (str "12345") = -1 ∧ extractBIN (str "12a4567890123") = -1 ∧
      extractBIN (str "-000011234567") = -1 ∧ extractBIN (str "4111111111111111") ≠ -1 :=
  ⟨(extractBIN_sentinel_iff (str "12345")).mpr (Or.inl (by decide)),
   (extractBIN_sentinel_iff (str "12a4567890123")).mpr (Or.inr (Or.inl (by decide))),
   (extractBIN_sentinel_iff (str "-000011234567")).mpr (Or.inr (Or.inr (by decide))),
   fun h => absurd ((extractBIN_sentinel_iff (str "4111111111111111")).mp h) (by decide)⟩

/-! ### The error of a failed load -/

theorem lineOutcome_error (lineNum : Nat) (text : GoString) (e : LoadError)
    (h : lineOutcome lineNum text = Except.error e) :
    errorLineNum e = some lineNum ∧
    ((splitByte 44 (trimSpace text)).length ≠ 3 →
      e = LoadError.badFormat lineNum (trimSpace text)) ∧
    ((splitByte 44 (trimSpace text)).length = 3 →
      atoi ((splitByte 44 (trimSpace text)).getD 1 []) = none →
      e = LoadError.badBinFrom lineNum ((splitByte 44 (trimSpace text)).getD 1 [])) ∧
    ((splitByte 44 (trimSpace text)).length = 3 →
      atoi ((splitByte 44 (trimSpace text)).getD 1 []) ≠ none →
      atoi ((splitByte 44 (trimSpace text)).getD 2 []) = none →
      e = LoadError.badBinTo lineNum ((splitByte 44 (trimSpace text)).getD 2 [])) ∧
    (∀ low high : Int, (splitByte 44 (trimSpace text)).length = 3 →
      atoi ((splitByte 44 (trimSpace text)).getD 1 []) = some low →
      atoi ((splitByte 44 (trimSpace text)).getD 2 []) = some high →
      low > high ∧ e = LoadError.fromAboveTo lineNum low high) := by
  unfold lineOutcome at h
  by_cases h1 : trimSpace text = []
  · simp only [h1, if_true] at h
    cases h
  · simp only [h1, if_false] at h
    by_cases h2 : (splitByte 44 (trimSpace text)).length ≠ 3
    · simp only [h2, if_true, ne_eq, not_false_eq_true, Except.error.injEq] at h
      subst h
      exact ⟨rfl, fun _ => rfl, fun h3 => absurd h3 h2, fun h3 => absurd h3 h2,
        fun _ _ h3 => absurd h3 h2⟩
    · have h2' : (splitByte 44 (trimSpace text)).length = 3 := by
        by_contra hne; exact h2 hne
      simp only [h2, if_false, ne_eq, not_true_eq_false] at h
      cases h3 : atoi ((splitByte 44 (trimSpace text)).getD 1 []) with
      | none =>
        rw [h3] at h
        simp only [Except.error.injEq] at h
        subst h
        exact ⟨rfl, fun hh => absurd h2' hh, fun _ _ => rfl, fun _ hh => absurd rfl hh,
          fun _ _ _ hh => (by cases hh)⟩
      | some binFrom =>
        cases h4 : atoi ((splitByte 44 (trimSpace text)).getD 2 []) with
        | none =>
          rw [h3, h4] at h
          simp only [Except.error.injEq] at h
          subst h
          exact ⟨rfl, fun hh => absurd h2' hh, fun _ hh => (by cases hh), fun _ _ _ => rfl,
            fun _ _ _ _ hh => (by cases hh)⟩
        | some binTo =>
          rw [h3, h4] at h
          by_cases h5 : binFrom > binTo
          · simp only [h5, if_true, Except.error.injEq] at h
            subst h
            refine ⟨rfl, fun hh => absurd h2' hh, fun _ hh => (by cases hh),
              fun _ _ hh => (by cases hh), ?_⟩
            intro low high _ hl hh
            cases hl
            cases hh
            exact ⟨h5, rfl⟩
          · simp only [h5, if_false] at h
            cases h

theorem loadLoop_skip_good (scanFailed : Bool) (pre rest : List GoString)
    (hpre : ∀ l ∈ pre, specBadLine l = false) :
    ∀ (lineNum : Nat) (banks : List Bank), ∃ banks',
      loadLoop scanFailed (pre ++ rest) lineNum banks =
        loadLoop scanFailed rest (lineNum + pre.length) banks' := by
  induction pre with
  | nil => intro lineNum banks; exact ⟨banks, rfl⟩
  | cons text pre ih =>
    intro lineNum banks
    have hrest : ∀ l ∈ pre, specBadLine l = false :=
      fun l hl => hpre l (List.mem_cons_of_mem _ hl)
    have hlen : lineNum + (text :: pre).length = lineNum + 1 + pre.length := by
      simp only [List.length_cons]; omega
    rw [List.cons_append, loadLoop_cons, hlen]
    cases h : lineOutcome (lineNum + 1) text with
    | error e =>
      have := (specBadLine_iff (lineNum + 1) text).mpr ⟨e, h⟩
      rw [hpre text (List.mem_cons_self _ _)] at this
      cases this
    | ok o =>
      cases o with
      | none => exact ih hrest _ _
      | some b => exact ih hrest _ _

/-- C14: when `loadBankData` fails on a malformed line, the error carries the
1-based number of the first malformed line, blank lines counted, together with
the offending text: the trimmed line when it has not 3 fields, the field that
does not parse, or the two bounds when the low one is above the high one. -/
theorem loadBankData_error_line (pre post : List GoString) (bad : GoString)
    (scanFailed : Bool) (hpre : ∀ l ∈ pre, specBadLine l = false)
    (hbad : specBadLine bad = true) :
    ∃ e, loadBankData (pre ++ bad :: post) scanFailed = ([], some e) ∧
      errorLineNum e = some (pre.length + 1) ∧
      ((splitByte 44 (trimSpace bad)).length ≠ 3 →
        e = LoadError.badFormat (pre.length + 1) (trimSpace bad)) ∧
      ((splitByte 44 (trimSpace bad)).length = 3 →
        atoi ((splitByte 44 (trimSpace bad)).getD 1 []) = none →
        e = LoadError.badBinFrom (pre.length + 1) ((splitByte 44 (trimSpace bad)).getD 1 [])) ∧
      ((splitByte 44 (trimSpace bad)).length = 3 →
        atoi ((splitByte 44 (trimSpace bad)).getD 1 []) ≠ none →
        atoi ((splitByte 44 (trimSpace bad)).getD 2 []) = none →
        e = LoadError.badBinTo (pre.length + 1) ((splitByte 44 (trimSpace bad)).getD 2 [])) ∧
      (∀ low high : Int, (splitByte 44 (trimSpace bad)).length = 3 →
        atoi ((splitByte 44 (trimSpace bad)).getD 1 []) = some low →
        atoi ((splitByte 44 (trimSpace bad)).getD 2 []) = some high →
        low > high ∧ e = LoadError.fromAboveTo (pre.length + 1) low high) := by
  obtain ⟨e, he⟩ := (specBadLine_iff (pre.length + 1) bad).mp hbad
  obtain ⟨banks', hskip⟩ := loadLoop_skip_good scanFailed pre (bad :: post) hpre 0 []
  refine ⟨e, ?_, lineOutcome_error _ _ _ he⟩
  unfold loadBankData
  rw [hskip, loadLoop_cons, Nat.zero_add, he]

/-- Witness for C14: the third line of the file, after a valid line and a
blank one, has a bound that does not parse; the error names line 3 and the
field. -/
theorem loadBankData_error_line_witness :
    ∃ e, loadBankData [str "A,1,2", str "", str " B,x7,9 ", str "C,5,6"] false = ([], some e) ∧
      errorLineNum e = some 3 ∧ e = LoadError.badBinFrom 3 (str "x7") := by
  obtain ⟨e, h1, h2, _, h4, _⟩ :=
    loadBankData_error_line [str "A,1,2", str ""] [str "C,5,6"] (str " B,x7,9 ") false
      (by decide) (by decide)
  exact ⟨e, h1, h2, h4 (by decide) (by decide)⟩

/-! ### `getUserInput` -/

theorem getUserInput_eq (input : GoString) (h : trimSpace input ≠ []) :
    getUserInput input false = removeByte 45 (removeByte 32 (trimSpace input)) := by
  simp only [getUserInput, Bool.false_eq_true, if_false, h]

theorem removeByte_eq_nil_iff (s : GoString) :
    removeByte 45 (removeByte 32 s) = [] ↔ ∀ c ∈ s, c = 32 ∨ c = 45 := by
  induction s with
  | nil => simp [removeByte]
  | cons c cs ih =>
    have hcons : (∀ x ∈ c :: cs, x = 32 ∨ x = 45) ↔
        (c = 32 ∨ c = 45) ∧ ∀ x ∈ cs, x = 32 ∨ x = 45 := List.forall_mem_cons
    rw [hcons, ← ih]
    unfold removeByte
    by_cases h32 : c = 32
    · simp only [List.filter_cons, h32, ne_eq, not_true_eq_false, decide_False,
        Bool.false_eq_true, if_false, true_or, true_and]
    · by_cases h45 : c = 45
      · simp only [List.filter_cons, h32, h45, ne_eq, not_false_eq_true, decide_True,
          if_true, not_true_eq_false, decide_False, Bool.false_eq_true, if_false, or_true,
          true_and, Nat.reduceEqDiff]
      · simp only [List.filter_cons, h32, h45, ne_eq, not_false_eq_true, decide_True,
          if_true, or_self, false_and]
        simp

/-- C15 fails on the code: the line holding a single hyphen is not empty after
trimming, yet `getUserInput` returns the empty string for it, the value `main`
takes as the signal to stop; in general the result is empty exactly when the
trimmed line holds nothing but spaces and hyphens, and a line not empty after
trimming gives the trimmed line with every space and hyphen removed. -/
theorem getUserInput_hyphen_only :
    trimSpace (str "-\n") ≠ [] ∧ getUserInput (str "-\n") false = [] ∧
    getUserInput (str " - - \n") false = [] ∧
    (∀ input : GoString,
      getUserInput input false = [] ↔ ∀ c ∈ trimSpace input, c = 32 ∨ c = 45) ∧
    (∀ input : GoString, trimSpace input ≠ [] →
      getUserInput input false = removeByte 45 (removeByte 32 (trimSpace input))) := by
  refine ⟨by decide, by decide, by decide, ?_, getUserInput_eq⟩
  intro input
  by_cases h : trimSpace input = []
  · simp [getUserInput, h]
  · rw [getUserInput_eq input h]
    exact removeByte_eq_nil_iff _

/-! ### Error detection of the Luhn check -/

theorem luhnWeight_eq_rev (s : GoString) (n : Nat) :
    n ≤ s.length → ∀ double : Bool,
      luhnWeight s n double = luhnWeightRev (s.take n).reverse double := by
  induction n with
  | zero => intro _ double; simp [luhnWeight, luhnWeightRev]
  | succ n ih =>
    intro hn double
    have hlt : n < s.length := by omega
    have ht : (s.take (n + 1)).reverse = s.getD n 0 :: (s.take n).reverse := by
      rw [List.take_succ, List.getD_eq_getElem _ _ hlt, List.getElem?_eq_getElem hlt]
      simp
    rw [ht, luhnWeight, luhnWeightRev, ih (by omega)]
    rfl

theorem specLuhnTotal_eq_rev (s : GoString) :
    specLuhnTotal s = luhnWeightRev s.reverse false := by
  rw [← luhnWeight_length, luhnWeight_eq_rev s s.length (Nat.le_refl _), List.take_length]

theorem validateLuhn_rev_iff (s : GoString) :
    validateLuhn s = true ↔
      2 ≤ s.length ∧ (∀ c ∈ s, isDigitByte c = true) ∧
        luhnWeightRev s.reverse false % 10 = 0 := by
  rw [validateLuhn_true_iff, specLuhnTotal_eq_rev]

theorem luhnWeightRev_append (xs ys : GoString) :
    ∀ double : Bool, luhnWeightRev (xs ++ ys) double =
      luhnWeightRev xs double +
        luhnWeightRev ys (if xs.length % 2 = 0 then double else !double) := by
  induction xs with
  | nil => intro double; simp [luhnWeightRev]
  | cons x xs ih =>
    intro double
    rw [List.cons_append, luhnWeightRev, luhnWeightRev, ih, Nat.add_assoc]
    congr 2
    by_cases h : xs.length % 2 = 0
    · have h' : ¬ (xs.length + 1) % 2 = 0 := by omega
      simp [h, h']
    · have h' : (xs.length + 1) % 2 = 0 := by omega
      simp [h, h']

theorem luhnTerm_lt (double : Bool) (d : Nat) (h : d < 10) : luhnTerm double d < 10 := by
  unfold luhnTerm
  cases double
  · simpa using h
  · simp only [if_true]
    split_ifs <;> omega

theorem luhnTerm_injective (double : Bool) (x y : Nat) (hx : x < 10) (hy : y < 10)
    (h : luhnTerm double x = luhnTerm double y) : x = y := by
  unfold luhnTerm at h
  cases double
  · simpa using h
  · simp only [if_true] at h
    split_ifs at h <;> omega

theorem luhnTerm_swap (double : Bool) (x y : Nat) (hx : x < 10) (hy : y < 10) :
    (luhnTerm double y + luhnTerm (!double) x) % 10 =
        (luhnTerm double x + luhnTerm (!double) y) % 10 ↔
      x = y ∨ (x = 0 ∧ y = 9) ∨ (x = 9 ∧ y = 0) := by
  have key : ∀ xx, xx < 10 → ∀ yy, yy < 10 → ∀ dd : Bool,
      ((luhnTerm dd yy + luhnTerm (!dd) xx) % 10 =
          (luhnTerm dd xx + luhnTerm (!dd) yy) % 10 ↔
        xx = yy ∨ (xx = 0 ∧ yy = 9) ∨ (xx = 9 ∧ yy = 0)) := by decide
  exact key x hx y hy double

theorem digit_value_lt (c : Nat) (h : isDigitByte c = true) : c - 48 < 10 := by
  have := (isDigitByte_iff c).mp h
  omega

theorem digit_value_injective (a b : Nat) (ha : isDigitByte a = true)
    (hb : isDigitByte b = true) (h : a - 48 = b - 48) : a = b := by
  have := (isDigitByte_iff a).mp ha
  have := (isDigitByte_iff b).mp hb
  omega

theorem luhnWeightRev_one (pre post : GoString) (a : Nat) :
    luhnWeightRev (pre ++ a :: post).reverse false =
      luhnWeightRev post.reverse false +
        (luhnTerm (if post.length % 2 = 0 then false else true) (a - 48) +
          luhnWeightRev pre.reverse (!(if post.length % 2 = 0 then false else true))) := by
  rw [List.reverse_append, List.reverse_cons, List.append_assoc, luhnWeightRev_append,
    List.length_reverse, List.singleton_append, luhnWeightRev]
  simp

theorem luhnWeightRev_two (pre post : GoString) (a b : Nat) :
    luhnWeightRev (pre ++ a :: b :: post).reverse false =
      luhnWeightRev post.reverse false +
        (luhnTerm (if post.length % 2 = 0 then false else true) (b - 48) +
          (luhnTerm (!(if post.length % 2 = 0 then false else true)) (a - 48) +
            luhnWeightRev pre.reverse (if post.length % 2 = 0 then false else true))) := by
  have e : pre ++ a :: b :: post = (pre ++ [a]) ++ b :: post := by simp
  rw [e, luhnWeightRev_one, List.reverse_append, List.reverse_singleton, List.singleton_append,
    luhnWeightRev, Bool.not_not]

/-- C17: `validateLuhn` detects every single-digit error: when it accepts a
string, replacing the digit at any one position by a different decimal digit
gives a string it rejects. -/
theorem validateLuhn_single_digit_error (pre post : GoString) (a b : Nat)
    (hs : validateLuhn (pre ++ a :: post) = true) (hb : isDigitByte b = true)
    (hab : a ≠ b) : validateLuhn (pre ++ b :: post) = false := by
  cases ht : validateLuhn (pre ++ b :: post) with
  | false => rfl
  | true =>
    obtain ⟨_, hds, hws⟩ := (validateLuhn_rev_iff _).mp hs
    obtain ⟨_, _, hwt⟩ := (validateLuhn_rev_iff _).mp ht
    have ha : isDigitByte a = true := hds a (by simp)
    rw [luhnWeightRev_one] at hws hwt
    have h1 := luhnTerm_lt (if post.length % 2 = 0 then false else true) (a - 48)
      (digit_value_lt a ha)
    have h2 := luhnTerm_lt (if post.length % 2 = 0 then false else true) (b - 48)
      (digit_value_lt b hb)
    have heq : luhnTerm (if post.length % 2 = 0 then false else true) (a - 48) =
        luhnTerm (if post.length % 2 = 0 then false else true) (b - 48) := by omega
    have := luhnTerm_injective _ _ _ (digit_value_lt a ha) (digit_value_lt b hb) heq
    exact absurd (digit_value_injective a b ha hb this) hab

/-- Witness for C17: the classic vector with its fourth digit changed from 2
to 7. -/
theorem validateLuhn_single_digit_error_witness :
    validateLuhn (str "79927398713") = true ∧ validateLuhn (str "79977398713") = false :=
  ⟨by decide,
   validateLuhn_single_digit_error (str "799") (str "7398713") 50 55 (by decide) (by decide)
     (by decide)⟩

/-- C18: every non-empty string of decimal digits has exactly one valid check
digit: exactly one decimal digit `c` makes `validateLuhn` accept the string
followed by `c`. -/
theorem validateLuhn_check_digit (p : GoString) (hne : p ≠ [])
    (hdig : ∀ x ∈ p, isDigitByte x = true) :
    ∃! c, isDigitByte c = true ∧ validateLuhn (p ++ [c]) = true := by
  have hlen : 1 ≤ p.length := by
    cases p with
    | nil => exact absurd rfl hne
    | cons x xs => simp
  have hw : ∀ c, luhnWeightRev (p ++ [c]).reverse false =
      (c - 48) + luhnWeightRev p.reverse true := by
    intro c
    rw [List.reverse_append, List.reverse_singleton, List.singleton_append, luhnWeightRev]
    rfl
  have hiff : ∀ c, (isDigitByte c = true ∧ validateLuhn (p ++ [c]) = true) ↔
      (48 ≤ c ∧ c ≤ 57) ∧ ((c - 48) + luhnWeightRev p.reverse true) % 10 = 0 := by
    intro c
    rw [validateLuhn_rev_iff, hw, isDigitByte_iff]
    constructor
    · rintro ⟨h1, _, _, h3⟩
      exact ⟨h1, h3⟩
    · rintro ⟨h1, h3⟩
      refine ⟨h1, by rw [List.length_append, List.length_singleton]; omega, ?_, h3⟩
      intro x hx
      rcases List.mem_append.mp hx with hx | hx
      · exact hdig x hx
      · rw [List.mem_singleton.mp hx]
        exact (isDigitByte_iff c).mpr h1
  refine ⟨48 + (10 - luhnWeightRev p.reverse true % 10) % 10, (hiff _).mpr ?_, ?_⟩
  · constructor
    · omega
    · omega
  · intro c hc
    have := (hiff c).mp hc
    omega

/-- Witness for C18: the ten digits "7992739871" take the check digit 3. -/
theorem validateLuhn_check_digit_witness :
    ∃! c, isDigitByte c = true ∧ validateLuhn (str "7992739871" ++ [c]) = true :=
  validateLuhn_check_digit (str "7992739871") (by decide) (by decide)

/-- C19: `validateLuhn` detects every transposition of two adjacent digits
except 0 with 9: when it accepts a string, the string with two different
adjacent digits swapped is accepted exactly when the two digits are 0 and 9, in
either order, and rejected otherwise. -/
theorem validateLuhn_transposition (pre post : GoString) (a b : Nat)
    (hs : validateLuhn (pre ++ a :: b :: post) = true) (hab : a ≠ b) :
    (validateLuhn (pre ++ b :: a :: post) = true ↔
      (a = 48 ∧ b = 57) ∨ (a = 57 ∧ b = 48)) ∧
    (¬ ((a = 48 ∧ b = 57) ∨ (a = 57 ∧ b = 48)) →
      validateLuhn (pre ++ b :: a :: post) = false) := by
  obtain ⟨hlen, hds, hws⟩ := (validateLuhn_rev_iff _).mp hs
  have ha : isDigitByte a = true := hds a (by simp)
  have hb : isDigitByte b = true := hds b (by simp)
  have ha' := (isDigitByte_iff a).mp ha
  have hb' := (isDigitByte_iff b).mp hb
  have hdt : ∀ c ∈ pre ++ b :: a :: post, isDigitByte c = true := by
    intro c hc
    apply hds c
    simp only [List.mem_append, List.mem_cons] at hc ⊢
    tauto
  have hlt : 2 ≤ (pre ++ b :: a :: post).length := by
    simp only [List.length_append, List.length_cons] at hlen ⊢
    omega
  have hswap := luhnTerm_swap (if post.length % 2 = 0 then false else true) (a - 48) (b - 48)
    (by omega) (by omega)
  have key : validateLuhn (pre ++ b :: a :: post) = true ↔
      (a = 48 ∧ b = 57) ∨ (a = 57 ∧ b = 48) := by
    rw [validateLuhn_rev_iff, luhnWeightRev_two]
    rw [luhnWeightRev_two] at hws
    constructor
    · rintro ⟨_, _, hwt⟩
      have hmod : (luhnTerm (if post.length % 2 = 0 then false else true) (b - 48) +
            luhnTerm (!(if post.length % 2 = 0 then false else true)) (a - 48)) % 10 =
          (luhnTerm (if post.length % 2 = 0 then false else true) (a - 48) +
            luhnTerm (!(if post.length % 2 = 0 then false else true)) (b - 48)) % 10 := by
        omega
      rcases hswap.mp hmod with h | h | h
      · omega
      · exact Or.inl ⟨by omega, by omega⟩
      · exact Or.inr ⟨by omega, by omega⟩
    · intro h
      have hxy : a - 48 = b - 48 ∨ (a - 48 = 0 ∧ b - 48 = 9) ∨ (a - 48 = 9 ∧ b - 48 = 0) := by
        omega
      have hmod := hswap.mpr hxy
      exact ⟨hlt, hdt, by omega⟩
  refine ⟨key, fun hno => ?_⟩
  cases ht : validateLuhn (pre ++ b :: a :: post) with
  | false => rfl
  | true => exact absurd (key.mp ht) hno

/-- Witness for C19: in the accepted "79927398713" swapping the adjacent 8 and
7 is detected; in the accepted "0919" swapping the leading 0 and 9 is not. -/
theorem validateLuhn_transposition_witness :
    validateLuhn (str "79927398713") = true ∧ validateLuhn (str "79927397813") = false ∧
    validateLuhn (str "0919") = true ∧ validateLuhn (str "9019") = true :=
  ⟨by decide,
   (validateLuhn_transposition (str "7992739") (str "13") 56 55 (by decide) (by decide)).2
     (by decide),
   by decide,
   ((validateLuhn_transposition (str "") (str "19") 48 57 (by decide) (by decide)).1).mpr
     (Or.inl ⟨rfl, rfl⟩)⟩

/-! ### A load that fails on well-formed lines -/

theorem specBadLine_specBankLine (b : Bank) (hcomma : 44 ∉ b.Name)
    (hlead : startsWithSpace b.Name = false) (hle : b.BinFrom ≤ b.BinTo)
    (hmin : -9223372036854775808 ≤ b.BinFrom) (hmax : b.BinTo ≤ 9223372036854775807) :
    specBadLine (specBankLine b) = false := by
  cases h : specBadLine (specBankLine b) with
  | false => rfl
  | true =>
    obtain ⟨e, he⟩ := (specBadLine_iff 1 (specBankLine b)).mp h
    rw [lineOutcome_specBankLine 1 b hcomma hlead hle hmin hmax] at he
    cases he

/-- C5, as stated, fails: with no malformed line the load still returns an
error when the scanner reports one, as it does for a file whose only line is
well formed but 64 KiB long. -/
theorem loadBankData_scan_error :
    specBadLine (str "A,1,2") = false ∧
    loadBankData [str "A,1,2"] true = ([], some LoadError.readFailed) ∧
    rawLines (specBankLine ⟨List.replicate 65536 65, 1, 2⟩ ++ [10]) =
      [specBankLine ⟨List.replicate 65536 65, 1, 2⟩] ∧
    specBadLine (specBankLine ⟨List.replicate 65536 65, 1, 2⟩) = false ∧
    loadBankFile (specBankLine ⟨List.replicate 65536 65, 1, 2⟩ ++ [10]) =
      ([], some LoadError.readFailed) := by
  have hlf : 10 ∉ specBankLine ⟨List.replicate 65536 65, 1, 2⟩ :=
    specBankLine_no_lf _ (replicate_not_mem 65536 65 10 (by omega))
  refine ⟨by decide, by decide, rawLines_with_lf _ hlf, ?_, ?_⟩
  · apply specBadLine_specBankLine
    · exact replicate_not_mem 65536 65 44 (by omega)
    · exact startsWithSpace_cons 65 (List.replicate 65535 65) (by omega) (by omega)
    · decide
    · decide
    · decide
  · apply loadBankFile_too_long _ hlf
    have h := specBankLine_length_ge ⟨List.replicate 65536 65, 1, 2⟩
    rw [List.length_replicate] at h
    exact h

end CardValidator
